import Mathlib

/-!
Verification of the sorted singly-linked list-set (`list_set.rs`).

The chain of owned `Node`s is embedded as a `List T` (a `Link<T>` is
`Option<Box<Node<T>>>`, i.e. either empty or a head element followed by the
rest of the chain).  A `Set<T>` is its head chain together with the cached
`len` field.  Every loop of the source is translated into a structurally
recursive function on the chain; the `CursorMut` abstraction is embedded
explicitly (a cursor keeps the elements already passed, the part of the
chain its borrowed `Link` still owns — `none` when the cursor has been
advanced past the final empty link — and the set's length counter), and the
cursor-driven operations (`insert`, `replace`, the set-algebra builders) are
also given as loops over this cursor state, with lemmas tying the two
presentations together.  Element comparison `Ord::cmp` is `cmp` of a linear
order.
-/

namespace ListSet

/-- `Set<T>`: the chain reachable from `head` plus the cached `len`. -/
structure Set (T : Type) where
  head : List T
  len : Nat
  deriving DecidableEq, Repr

variable {T : Type}

/-- `Set::new`. -/
def Set.new : Set T := { head := [], len := 0 }

/-- `Set::is_empty`. -/
def Set.is_empty (s : Set T) : Bool := s.len == 0

/-- The representation invariant stated in the source (`list_set.rs` line 29
and the spec): the chain is strictly increasing, and `len` counts the nodes
reachable from `head`. -/
def Set.wf [LinearOrder T] (s : Set T) : Prop :=
  s.head.Sorted (· < ·) ∧ s.len = s.head.length

instance [LinearOrder T] (s : Set T) : Decidable s.wf := by
  unfold Set.wf; infer_instance

/-- The loop of `Set::contains`, walking the chain. -/
def containsChain [LinearOrder T] (element : T) : List T → Bool
  | [] => false
  | a :: rest =>
    match cmp element a with
    | .lt => false
    | .eq => true
    | .gt => containsChain element rest

/-- `Set::contains`. -/
def Set.contains [LinearOrder T] (s : Set T) (element : T) : Bool :=
  containsChain element s.head

/-- The cursor scan of `Set::insert` as a chain transformation: the new
chain together with the returned `bool` (true iff a node was spliced in). -/
def insertChain [LinearOrder T] (element : T) : List T → List T × Bool
  | [] => ([element], true)
  | a :: rest =>
    match cmp element a with
    | .lt => (element :: a :: rest, true)
    | .eq => (a :: rest, false)
    | .gt =>
      let r := insertChain element rest
      (a :: r.1, r.2)

/-- `Set::insert`; the cursor's `insert` bumps `len` exactly when it runs. -/
def Set.insert [LinearOrder T] (s : Set T) (element : T) : Set T × Bool :=
  let r := insertChain element s.head
  ({ head := r.1, len := if r.2 then s.len + 1 else s.len }, r.2)

/-- The cursor scan of `Set::replace`: new chain plus returned old value. -/
def replaceChain [LinearOrder T] (element : T) : List T → List T × Option T
  | [] => ([element], none)
  | a :: rest =>
    match cmp element a with
    | .lt => (element :: a :: rest, none)
    | .eq => (element :: rest, some a)
    | .gt =>
      let r := replaceChain element rest
      (a :: r.1, r.2)

/-- `Set::replace`. -/
def Set.replace [LinearOrder T] (s : Set T) (element : T) : Set T × Option T :=
  let r := replaceChain element s.head
  ({ head := r.1, len := if r.2.isSome then s.len else s.len + 1 }, r.2)

/-- The cursor scan of `Set::remove`: new chain plus the removed element. -/
def removeChain [LinearOrder T] (element : T) : List T → List T × Option T
  | [] => ([], none)
  | a :: rest =>
    match cmp element a with
    | .lt => (a :: rest, none)
    | .eq => (rest, some a)
    | .gt =>
      let r := removeChain element rest
      (a :: r.1, r.2)

/-- `Set::remove`; the cursor's `remove` decrements `len` exactly when it
detaches a node. -/
def Set.remove [LinearOrder T] (s : Set T) (element : T) : Set T × Option T :=
  let r := removeChain element s.head
  ({ head := r.1, len := if r.2.isSome then s.len - 1 else s.len }, r.2)

/-- The loop of `Set::is_disjoint` over the two chains. -/
def disjointChain [LinearOrder T] : List T → List T → Bool
  | a :: i, b :: j =>
    match cmp a b with
    | .lt => disjointChain i (b :: j)
    | .gt => disjointChain (a :: i) j
    | .eq => false
  | _, _ => true
termination_by i j => i.length + j.length

/-- `Set::is_disjoint`. -/
def Set.is_disjoint [LinearOrder T] (s other : Set T) : Bool :=
  disjointChain s.head other.head

/-- The loop of `Set::is_subset`, including the final
`i.is_none() || j.is_some()`. -/
def subsetChain [LinearOrder T] : List T → List T → Bool
  | a :: i, b :: j =>
    match cmp a b with
    | .lt => false
    | .gt => subsetChain (a :: i) j
    | .eq => subsetChain i j
  | i, j => i.isEmpty || !j.isEmpty
termination_by i j => i.length + j.length

/-- `Set::is_subset`. -/
def Set.is_subset [LinearOrder T] (s other : Set T) : Bool :=
  subsetChain s.head other.head

/-- `Set::is_superset`. -/
def Set.is_superset [LinearOrder T] (s other : Set T) : Bool :=
  other.is_subset s

/-- The merge loop of `Set::intersection` (emitted elements in order). -/
def interChain [LinearOrder T] : List T → List T → List T
  | a :: i, b :: j =>
    match cmp a b with
    | .lt => interChain i (b :: j)
    | .gt => interChain (a :: i) j
    | .eq => a :: interChain i j
  | _, _ => []
termination_by i j => i.length + j.length

/-- `Set::intersection`: the result set is built by cursor appends, so its
`len` is the number of emitted elements. -/
def Set.intersection [LinearOrder T] (s other : Set T) : Set T :=
  let c := interChain s.head other.head
  { head := c, len := c.length }

/-- The merge loop of `Set::union`, with its two trailing remainder loops. -/
def unionChain [LinearOrder T] : List T → List T → List T
  | a :: i, b :: j =>
    match cmp a b with
    | .lt => a :: unionChain i (b :: j)
    | .gt => b :: unionChain (a :: i) j
    | .eq => a :: unionChain i j
  | [], j => j
  | i, [] => i
termination_by i j => i.length + j.length

/-- `Set::union`. -/
def Set.union [LinearOrder T] (s other : Set T) : Set T :=
  let c := unionChain s.head other.head
  { head := c, len := c.length }

/-- The merge loop of `Set::difference` (self minus other), with the
trailing remainder loop over `i`. -/
def diffChain [LinearOrder T] : List T → List T → List T
  | a :: i, b :: j =>
    match cmp a b with
    | .lt => a :: diffChain i (b :: j)
    | .gt => diffChain (a :: i) j
    | .eq => diffChain i j
  | i, _ => i
termination_by i j => i.length + j.length

/-- `Set::difference`. -/
def Set.difference [LinearOrder T] (s other : Set T) : Set T :=
  let c := diffChain s.head other.head
  { head := c, len := c.length }

/-- The merge loop of `Set::symmetric_difference`. -/
def symmDiffChain [LinearOrder T] : List T → List T → List T
  | a :: i, b :: j =>
    match cmp a b with
    | .lt => a :: symmDiffChain i (b :: j)
    | .gt => b :: symmDiffChain (a :: i) j
    | .eq => symmDiffChain i j
  | [], j => j
  | i, [] => i
termination_by i j => i.length + j.length

/-- `Set::symmetric_difference`. -/
def Set.symmetric_difference [LinearOrder T] (s other : Set T) : Set T :=
  let c := symmDiffChain s.head other.head
  { head := c, len := c.length }

/-- The lockstep loop of `impl Ord for Set`. -/
def cmpChain [LinearOrder T] : List T → List T → Ordering
  | [], [] => .eq
  | [], _ :: _ => .lt
  | _ :: _, [] => .gt
  | a :: i, b :: j =>
    match cmp a b with
    | .lt => .lt
    | .gt => .gt
    | .eq => cmpChain i j

/-- `Ord::cmp` for `Set`. -/
def Set.cmp [LinearOrder T] (s other : Set T) : Ordering :=
  cmpChain s.head other.head

/-- `PartialEq for Set`: equality is `cmp == Equal`. -/
def Set.eq [LinearOrder T] (s other : Set T) : Bool :=
  Set.cmp s other == Ordering.eq

/-- The copy loop of `impl Clone for Set` (each node duplicated in order). -/
def cloneChain : List T → List T
  | [] => []
  | a :: rest => a :: cloneChain rest

/-- `Clone::clone` for `Set`: copies the chain and then `len`. -/
def Set.clone (s : Set T) : Set T :=
  { head := cloneChain s.head, len := s.len }

/-- `Extend::extend`: repeated `insert`. -/
def Set.extend [LinearOrder T] (s : Set T) (l : List T) : Set T :=
  l.foldl (fun acc x => (acc.insert x).1) s

/-- `FromIterator::from_iter`: `extend` onto a fresh empty set. -/
def Set.fromList [LinearOrder T] (l : List T) : Set T :=
  Set.new.extend l

/-- The borrowing iterator `Iter`. -/
structure Iter (T : Type) where
  link : List T
  len : Nat
  deriving DecidableEq, Repr

/-- `Set::iter` (`IntoIterator for &Set`). -/
def Set.iter (s : Set T) : Iter T := { link := s.head, len := s.len }

/-- `Iterator::next` for `Iter`. -/
def Iter.next : Iter T → Option T × Iter T
  | { link := [], len := n } => (none, { link := [], len := n })
  | { link := a :: rest, len := n } => (some a, { link := rest, len := n - 1 })

/-- Collecting the whole borrowing iterator by repeated `next`. -/
def Iter.collect : Iter T → List T
  | { link := [], len := _ } => []
  | { link := a :: rest, len := n } => a :: Iter.collect { link := rest, len := n - 1 }

/-- `CursorMut`: the elements already passed, the chain owned by the
borrowed `Link` (`none` once the cursor advanced past the final empty
link), and the set's length counter. -/
structure CursorMut (T : Type) where
  passed : List T
  link : Option (List T)
  len : Nat
  deriving DecidableEq, Repr

/-- `CursorMut::new`: borrow the set's head link. -/
def CursorMut.new (s : Set T) : CursorMut T :=
  { passed := [], link := some s.head, len := s.len }

/-- `CursorMut::data`. -/
def CursorMut.data : CursorMut T → Option T
  | { passed := _, link := some (a :: _), len := _ } => some a
  | _ => none

/-- `CursorMut::advance`. -/
def CursorMut.advance : CursorMut T → CursorMut T
  | { passed := p, link := some (a :: rest), len := n } =>
    { passed := p ++ [a], link := some rest, len := n }
  | { passed := p, link := some [], len := n } =>
    { passed := p, link := none, len := n }
  | c => c

/-- `CursorMut::remove`: detach the node the link owns, if any. -/
def CursorMut.remove : CursorMut T → Option T × CursorMut T
  | { passed := p, link := some (a :: rest), len := n } =>
    (some a, { passed := p, link := some rest, len := n - 1 })
  | c => (none, c)

/-- `CursorMut::insert`: `none` models the `expect` abort when the cursor no
longer holds a `Link`. -/
def CursorMut.insert (c : CursorMut T) (data : T) : Option (CursorMut T) :=
  match c with
  | { passed := p, link := some rest, len := n } =>
    some { passed := p, link := some (data :: rest), len := n + 1 }
  | _ => none

/-- The set a cursor's borrow reconstructs: passed prefix, remaining chain,
and the (shared) length counter. -/
def CursorMut.toSet (c : CursorMut T) : Set T :=
  { head := c.passed ++ c.link.getD [], len := c.len }

/-- The cursor loop of `Set::insert`, fallible exactly where
`CursorMut::insert` may abort. -/
def insertLoop [LinearOrder T] (element : T) : CursorMut T → Option (CursorMut T × Bool)
  | { passed := p, link := some (a :: rest), len := n } =>
    match cmp element a with
    | .lt =>
      (CursorMut.insert { passed := p, link := some (a :: rest), len := n } element).map
        (fun c2 => (c2, true))
    | .eq => some ({ passed := p, link := some (a :: rest), len := n }, false)
    | .gt =>
      insertLoop element (CursorMut.advance { passed := p, link := some (a :: rest), len := n })
  | c => (c.insert element).map (fun c2 => (c2, true))
termination_by c => (c.link.getD []).length
decreasing_by simp [CursorMut.advance]

/-- The cursor loop of `Set::replace`. -/
def replaceLoop [LinearOrder T] (element : T) : CursorMut T → Option (CursorMut T × Option T)
  | { passed := p, link := some (a :: rest), len := n } =>
    match cmp element a with
    | .lt =>
      (CursorMut.insert { passed := p, link := some (a :: rest), len := n } element).map
        (fun c2 => (c2, none))
    | .eq => some ({ passed := p, link := some (element :: rest), len := n }, some a)
    | .gt =>
      replaceLoop element (CursorMut.advance { passed := p, link := some (a :: rest), len := n })
  | c => (c.insert element).map (fun c2 => (c2, none))
termination_by c => (c.link.getD []).length
decreasing_by simp [CursorMut.advance]

/-- A trailing `for x in i { cur.insert(x); cur.advance(); }` loop of the
set-algebra builders. -/
def appendLoop : List T → CursorMut T → Option (CursorMut T)
  | [], c => some c
  | a :: rest, c => do
    let c2 ← c.insert a
    appendLoop rest c2.advance

/-- The cursor-and-iterators loop of `Set::intersection`. -/
def interLoop [LinearOrder T] : List T → List T → CursorMut T → Option (CursorMut T)
  | a :: i, b :: j, c =>
    match cmp a b with
    | .lt => interLoop i (b :: j) c
    | .gt => interLoop (a :: i) j c
    | .eq => do
      let c2 ← c.insert a
      interLoop i j c2.advance
  | _, _, c => some c
termination_by i j _ => i.length + j.length

/-- The cursor-and-iterators loop of `Set::union`. -/
def unionLoop [LinearOrder T] : List T → List T → CursorMut T → Option (CursorMut T)
  | a :: i, b :: j, c =>
    match cmp a b with
    | .lt => do
      let c2 ← c.insert a
      unionLoop i (b :: j) c2.advance
    | .gt => do
      let c2 ← c.insert b
      unionLoop (a :: i) j c2.advance
    | .eq => do
      let c2 ← c.insert a
      unionLoop i j c2.advance
  | i, j, c => do
    let c2 ← appendLoop i c
    appendLoop j c2
termination_by i j _ => i.length + j.length

/-- The cursor-and-iterators loop of `Set::difference`. -/
def diffLoop [LinearOrder T] : List T → List T → CursorMut T → Option (CursorMut T)
  | a :: i, b :: j, c =>
    match cmp a b with
    | .lt => do
      let c2 ← c.insert a
      diffLoop i (b :: j) c2.advance
    | .gt => diffLoop (a :: i) j c
    | .eq => diffLoop i j c
  | i, _, c => appendLoop i c
termination_by i j _ => i.length + j.length

/-- The cursor-and-iterators loop of `Set::symmetric_difference`. -/
def symmDiffLoop [LinearOrder T] : List T → List T → CursorMut T → Option (CursorMut T)
  | a :: i, b :: j, c =>
    match cmp a b with
    | .lt => do
      let c2 ← c.insert a
      symmDiffLoop i (b :: j) c2.advance
    | .gt => do
      let c2 ← c.insert b
      symmDiffLoop (a :: i) j c2.advance
    | .eq => symmDiffLoop i j c
  | i, j, c => do
    let c2 ← appendLoop i c
    appendLoop j c2
termination_by i j _ => i.length + j.length

/-- `DrainFilter`: its cursor into the set plus its own remaining-count. -/
structure DrainFilter (T : Type) where
  cursor : CursorMut T
  len : Nat
  deriving DecidableEq, Repr

/-- `Set::drain_filter`. -/
def Set.drain_filter (s : Set T) : DrainFilter T :=
  { cursor := CursorMut.new s, len := s.len }

/-- `Iterator::next` for `DrainFilter`: scan forward, removing and yielding
the first element satisfying the predicate, advancing past the others. -/
def DrainFilter.next (pred : T → Bool) : DrainFilter T → Option T × DrainFilter T
  | { cursor := { passed := p, link := some (a :: rest), len := n }, len := m } =>
    if pred a then
      ((CursorMut.remove { passed := p, link := some (a :: rest), len := n }).1,
       { cursor := (CursorMut.remove { passed := p, link := some (a :: rest), len := n }).2,
         len := m - 1 })
    else
      DrainFilter.next pred
        { cursor := CursorMut.advance { passed := p, link := some (a :: rest), len := n },
          len := m - 1 }
  | df => (none, df)
termination_by df => (df.cursor.link.getD []).length
decreasing_by simp [CursorMut.advance]

/-- `k` successive `next` calls, collecting the yielded elements (stopping
early once `next` returns `None`, after which it only ever returns `None`). -/
def DrainFilter.runK (pred : T → Bool) (df : DrainFilter T) : Nat → List T × DrainFilter T
  | 0 => ([], df)
  | k + 1 =>
    match DrainFilter.next pred df with
    | (some d, df2) =>
      let r := DrainFilter.runK pred df2 k
      (d :: r.1, r.2)
    | (none, df2) => ([], df2)

/-- `Drop for DrainFilter` (`for _ in self {}`): drive the remaining filter
pass to completion.  Each yielding `next` strictly shortens the chain the
cursor still owns, so that length plus one bounds the remaining yields. -/
def DrainFilter.dropRun (pred : T → Bool) (df : DrainFilter T) : DrainFilter T :=
  (DrainFilter.runK pred df ((df.cursor.link.getD []).length + 1)).2

/-- One iteration of the `Drop for Set` teardown loop
(`head = next.link`): detach the head node. -/
def dropStep : List T → List T
  | [] => []
  | _ :: rest => rest

variable [LinearOrder T]

/-- In a sorted chain the head is the minimum. -/
theorem head_le_of_mem_sorted {b x : T} {j : List T}
    (hj : (b :: j).Sorted (· < ·)) (hx : x ∈ b :: j) : b ≤ x := by
  rcases List.mem_cons.mp hx with rfl | h
  · exact le_refl x
  · exact le_of_lt ((List.sorted_cons.mp hj).1 x h)

/-- Elements of `unionChain i j` are exactly those of `i` or `j`. -/
theorem mem_unionChain (x : T) : ∀ i j : List T, x ∈ unionChain i j ↔ x ∈ i ∨ x ∈ j := by
  intro i j
  induction i, j using unionChain.induct with
  | case1 a i b j hab ih => simp only [unionChain, hab, List.mem_cons, ih]; tauto
  | case2 a i b j hab ih => simp only [unionChain, hab, List.mem_cons, ih]; tauto
  | case3 a i b j hab ih =>
    have hab2 : a = b := by rwa [cmp_eq_eq_iff] at hab
    subst hab2
    simp only [unionChain, hab, List.mem_cons, ih]
    tauto
  | case4 j => simp [unionChain]
  | case5 i h =>
    cases i with
    | nil => simp [unionChain]
    | cons a i => simp [unionChain]

/-- The union of sorted chains is sorted. -/
theorem sorted_unionChain : ∀ i j : List T, i.Sorted (· < ·) → j.Sorted (· < ·) →
    (unionChain i j).Sorted (· < ·) := by
  intro i j
  induction i, j using unionChain.induct with
  | case1 a i b j hab ih =>
    intro hi hj
    simp only [unionChain, hab]
    rw [cmp_eq_lt_iff] at hab
    rw [List.sorted_cons] at hi ⊢
    refine ⟨?_, ih hi.2 hj⟩
    intro y hy
    rcases (mem_unionChain y i (b :: j)).mp hy with h | h
    · exact hi.1 y h
    · exact lt_of_lt_of_le hab (head_le_of_mem_sorted hj h)
  | case2 a i b j hab ih =>
    intro hi hj
    simp only [unionChain, hab]
    rw [cmp_eq_gt_iff] at hab
    rw [List.sorted_cons] at hj ⊢
    refine ⟨?_, ih hi hj.2⟩
    intro y hy
    rcases (mem_unionChain y (a :: i) j).mp hy with h | h
    · exact lt_of_lt_of_le hab (head_le_of_mem_sorted hi h)
    · exact hj.1 y h
  | case3 a i b j hab ih =>
    intro hi hj
    simp only [unionChain, hab]
    have hab2 : a = b := by rwa [cmp_eq_eq_iff] at hab
    subst hab2
    rw [List.sorted_cons] at hi hj ⊢
    refine ⟨?_, ih hi.2 hj.2⟩
    intro y hy
    rcases (mem_unionChain y i j).mp hy with h | h
    · exact hi.1 y h
    · exact hj.1 y h
  | case4 j => intro _ hj; simpa [unionChain] using hj
  | case5 i h =>
    intro hi _
    cases i with
    | nil => simp [unionChain]
    | cons a i => simpa [unionChain] using hi

/-- Elements of `interChain i j` come from `i`. -/
theorem interChain_subset_left (x : T) : ∀ i j : List T, x ∈ interChain i j → x ∈ i := by
  intro i j
  induction i, j using interChain.induct with
  | case1 a i b j hab ih =>
    simp only [interChain, hab]
    intro h
    exact List.mem_cons_of_mem a (ih h)
  | case2 a i b j hab ih => simp only [interChain, hab]; exact ih
  | case3 a i b j hab ih =>
    simp only [interChain, hab, List.mem_cons]
    rintro (rfl | h)
    · exact Or.inl rfl
    · exact Or.inr (ih h)
  | case4 i j h =>
    cases i with
    | nil => simp [interChain]
    | cons a i =>
      cases j with
      | nil => simp [interChain]
      | cons b j => exact (h a i b j rfl rfl).elim

/-- Under sortedness, membership in `interChain` is joint membership. -/
theorem mem_interChain (x : T) : ∀ i j : List T, i.Sorted (· < ·) → j.Sorted (· < ·) →
    (x ∈ interChain i j ↔ x ∈ i ∧ x ∈ j) := by
  intro i j
  induction i, j using interChain.induct with
  | case1 a i b j hab ih =>
    intro hi hj
    simp only [interChain, hab]
    rw [cmp_eq_lt_iff] at hab
    rw [ih (List.sorted_cons.mp hi).2 hj]
    constructor
    · rintro ⟨h1, h2⟩
      exact ⟨List.mem_cons_of_mem a h1, h2⟩
    · rintro ⟨h1, h2⟩
      rcases List.mem_cons.mp h1 with rfl | h1
      · exact absurd (head_le_of_mem_sorted hj h2) (not_le_of_lt hab)
      · exact ⟨h1, h2⟩
  | case2 a i b j hab ih =>
    intro hi hj
    simp only [interChain, hab]
    rw [cmp_eq_gt_iff] at hab
    rw [ih hi (List.sorted_cons.mp hj).2]
    constructor
    · rintro ⟨h1, h2⟩
      exact ⟨h1, List.mem_cons_of_mem b h2⟩
    · rintro ⟨h1, h2⟩
      rcases List.mem_cons.mp h2 with rfl | h2
      · exact absurd (head_le_of_mem_sorted hi h1) (not_le_of_lt hab)
      · exact ⟨h1, h2⟩
  | case3 a i b j hab ih =>
    intro hi hj
    simp only [interChain, hab]
    have hab2 : a = b := by rwa [cmp_eq_eq_iff] at hab
    subst hab2
    constructor
    · intro h
      rcases List.mem_cons.mp h with rfl | h
      · exact ⟨List.mem_cons_self x i, List.mem_cons_self x j⟩
      · obtain ⟨h1, h2⟩ := (ih (List.sorted_cons.mp hi).2 (List.sorted_cons.mp hj).2).mp h
        exact ⟨List.mem_cons_of_mem a h1, List.mem_cons_of_mem a h2⟩
    · rintro ⟨h1, h2⟩
      rcases List.mem_cons.mp h1 with rfl | h1
      · exact List.mem_cons_self x (interChain i j)
      · rcases List.mem_cons.mp h2 with heq | h2
        · exact absurd ((List.sorted_cons.mp hi).1 x h1) (fun hc => lt_irrefl a (heq ▸ hc))
        · exact List.mem_cons_of_mem a
            ((ih (List.sorted_cons.mp hi).2 (List.sorted_cons.mp hj).2).mpr ⟨h1, h2⟩)
  | case4 i j h =>
    intro _ _
    cases i with
    | nil => simp [interChain]
    | cons a i =>
      cases j with
      | nil => simp [interChain]
      | cons b j => exact (h a i b j rfl rfl).elim

/-- The intersection of sorted chains is sorted. -/
theorem sorted_interChain : ∀ i j : List T, i.Sorted (· < ·) → j.Sorted (· < ·) →
    (interChain i j).Sorted (· < ·) := by
  intro i j
  induction i, j using interChain.induct with
  | case1 a i b j hab ih =>
    intro hi hj
    simp only [interChain, hab]
    exact ih (List.sorted_cons.mp hi).2 hj
  | case2 a i b j hab ih =>
    intro hi hj
    simp only [interChain, hab]
    exact ih hi (List.sorted_cons.mp hj).2
  | case3 a i b j hab ih =>
    intro hi hj
    simp only [interChain, hab]
    rw [List.sorted_cons] at hi ⊢
    refine ⟨?_, ih hi.2 (List.sorted_cons.mp hj).2⟩
    intro y hy
    exact hi.1 y (interChain_subset_left y i j hy)
  | case4 i j h =>
    intro _ _
    cases i with
    | nil => simp [interChain]
    | cons a i =>
      cases j with
      | nil => simp [interChain]
      | cons b j => exact (h a i b j rfl rfl).elim

/-- Elements of `diffChain i j` come from `i`. -/
theorem diffChain_subset_left (x : T) : ∀ i j : List T, x ∈ diffChain i j → x ∈ i := by
  intro i j
  induction i, j using diffChain.induct with
  | case1 a i b j hab ih =>
    simp only [diffChain, hab, List.mem_cons]
    rintro (rfl | h)
    · exact Or.inl rfl
    · exact Or.inr (ih h)
  | case2 a i b j hab ih => simp only [diffChain, hab]; exact ih
  | case3 a i b j hab ih =>
    simp only [diffChain, hab]
    intro h
    exact List.mem_cons_of_mem a (ih h)
  | case4 i j h =>
    cases i with
    | nil => simp [diffChain]
    | cons a i =>
      cases j with
      | nil => simp [diffChain]
      | cons b j => exact (h a i b j rfl rfl).elim

/-- Under sortedness, membership in `diffChain` is membership in `i` minus `j`. -/
theorem mem_diffChain (x : T) : ∀ i j : List T, i.Sorted (· < ·) → j.Sorted (· < ·) →
    (x ∈ diffChain i j ↔ x ∈ i ∧ x ∉ j) := by
  intro i j
  induction i, j using diffChain.induct with
  | case1 a i b j hab ih =>
    intro hi hj
    simp only [diffChain, hab]
    rw [cmp_eq_lt_iff] at hab
    constructor
    · intro h
      rcases List.mem_cons.mp h with rfl | h
      · refine ⟨List.mem_cons_self x i, fun hc => ?_⟩
        exact absurd (head_le_of_mem_sorted hj hc) (not_le_of_lt hab)
      · obtain ⟨h1, h2⟩ := (ih (List.sorted_cons.mp hi).2 hj).mp h
        exact ⟨List.mem_cons_of_mem a h1, h2⟩
    · rintro ⟨h1, h2⟩
      rcases List.mem_cons.mp h1 with rfl | h1
      · exact List.mem_cons_self x (diffChain i (b :: j))
      · exact List.mem_cons_of_mem a ((ih (List.sorted_cons.mp hi).2 hj).mpr ⟨h1, h2⟩)
  | case2 a i b j hab ih =>
    intro hi hj
    simp only [diffChain, hab]
    rw [cmp_eq_gt_iff] at hab
    rw [ih hi (List.sorted_cons.mp hj).2]
    constructor
    · rintro ⟨h1, h2⟩
      refine ⟨h1, fun hc => ?_⟩
      rcases List.mem_cons.mp hc with rfl | hc
      · exact absurd (head_le_of_mem_sorted hi h1) (not_le_of_lt hab)
      · exact h2 hc
    · rintro ⟨h1, h2⟩
      exact ⟨h1, fun hc => h2 (List.mem_cons_of_mem b hc)⟩
  | case3 a i b j hab ih =>
    intro hi hj
    simp only [diffChain, hab]
    have hab2 : a = b := by rwa [cmp_eq_eq_iff] at hab
    subst hab2
    rw [ih (List.sorted_cons.mp hi).2 (List.sorted_cons.mp hj).2]
    constructor
    · rintro ⟨h1, h2⟩
      refine ⟨List.mem_cons_of_mem a h1, fun hc => ?_⟩
      rcases List.mem_cons.mp hc with heq | hc
      · exact absurd ((List.sorted_cons.mp hi).1 x h1) (fun hlt => lt_irrefl a (heq ▸ hlt))
      · exact h2 hc
    · rintro ⟨h1, h2⟩
      rcases List.mem_cons.mp h1 with rfl | h1
      · exact absurd (List.mem_cons_self x j) h2
      · exact ⟨h1, fun hc => h2 (List.mem_cons_of_mem a hc)⟩
  | case4 i j h =>
    intro hi hj
    cases j with
    | cons b j =>
      cases i with
      | nil => simp [diffChain]
      | cons a i => exact (h a i b j rfl rfl).elim
    | nil => simp [diffChain]

/-- The difference of sorted chains is sorted. -/
theorem sorted_diffChain : ∀ i j : List T, i.Sorted (· < ·) →
    (diffChain i j).Sorted (· < ·) := by
  intro i j
  induction i, j using diffChain.induct with
  | case1 a i b j hab ih =>
    intro hi
    simp only [diffChain, hab]
    rw [List.sorted_cons] at hi ⊢
    refine ⟨?_, ih hi.2⟩
    intro y hy
    exact hi.1 y (diffChain_subset_left y i (b :: j) hy)
  | case2 a i b j hab ih =>
    intro hi
    simp only [diffChain, hab]
    exact ih hi
  | case3 a i b j hab ih =>
    intro hi
    simp only [diffChain, hab]
    exact ih (List.sorted_cons.mp hi).2
  | case4 i j h =>
    intro hi
    cases i with
    | nil => simp [diffChain]
    | cons a i =>
      cases j with
      | nil => simpa [diffChain] using hi
      | cons b j => exact (h a i b j rfl rfl).elim

/-- Elements of `symmDiffChain i j` come from `i` or `j`. -/
theorem symmDiffChain_subset (x : T) : ∀ i j : List T,
    x ∈ symmDiffChain i j → x ∈ i ∨ x ∈ j := by
  intro i j
  induction i, j using symmDiffChain.induct with
  | case1 a i b j hab ih =>
    intro hy
    simp only [symmDiffChain, hab] at hy
    rcases List.mem_cons.mp hy with rfl | hy
    · exact Or.inl (List.mem_cons_self x i)
    · rcases ih hy with h | h
      · exact Or.inl (List.mem_cons_of_mem a h)
      · exact Or.inr h
  | case2 a i b j hab ih =>
    intro hy
    simp only [symmDiffChain, hab] at hy
    rcases List.mem_cons.mp hy with rfl | hy
    · exact Or.inr (List.mem_cons_self x j)
    · rcases ih hy with h | h
      · exact Or.inl h
      · exact Or.inr (List.mem_cons_of_mem b h)
  | case3 a i b j hab ih =>
    intro hy
    simp only [symmDiffChain, hab] at hy
    rcases ih hy with h | h
    · exact Or.inl (List.mem_cons_of_mem a h)
    · exact Or.inr (List.mem_cons_of_mem b h)
  | case4 j =>
    intro hy
    simp only [symmDiffChain] at hy
    exact Or.inr hy
  | case5 i h =>
    intro hy
    cases i with
    | nil => simp [symmDiffChain] at hy
    | cons a i =>
      simp only [symmDiffChain] at hy
      exact Or.inl hy

/-- The symmetric difference of sorted chains is sorted. -/
theorem sorted_symmDiffChain : ∀ i j : List T, i.Sorted (· < ·) → j.Sorted (· < ·) →
    (symmDiffChain i j).Sorted (· < ·) := by
  intro i j
  induction i, j using symmDiffChain.induct with
  | case1 a i b j hab ih =>
    intro hi hj
    simp only [symmDiffChain, hab]
    rw [cmp_eq_lt_iff] at hab
    rw [List.sorted_cons] at hi ⊢
    refine ⟨?_, ih hi.2 hj⟩
    intro y hy
    rcases symmDiffChain_subset y i (b :: j) hy with h | h
    · exact hi.1 y h
    · exact lt_of_lt_of_le hab (head_le_of_mem_sorted hj h)
  | case2 a i b j hab ih =>
    intro hi hj
    simp only [symmDiffChain, hab]
    rw [cmp_eq_gt_iff] at hab
    rw [List.sorted_cons] at hj ⊢
    refine ⟨?_, ih hi hj.2⟩
    intro y hy
    rcases symmDiffChain_subset y (a :: i) j hy with h | h
    · exact lt_of_lt_of_le hab (head_le_of_mem_sorted hi h)
    · exact hj.1 y h
  | case3 a i b j hab ih =>
    intro hi hj
    simp only [symmDiffChain, hab]
    exact ih (List.sorted_cons.mp hi).2 (List.sorted_cons.mp hj).2
  | case4 j => intro _ hj; simpa [symmDiffChain] using hj
  | case5 i h =>
    intro hi _
    cases i with
    | nil => simp [symmDiffChain]
    | cons a i => simpa [symmDiffChain] using hi

/-- In a sorted chain the early-exit scan of `contains` decides membership. -/
theorem containsChain_iff_mem (x : T) : ∀ l : List T, l.Sorted (· < ·) →
    (containsChain x l = true ↔ x ∈ l) := by
  intro l
  induction l with
  | nil => intro _; simp [containsChain]
  | cons a rest ih =>
    intro hl
    rcases lt_trichotomy x a with h | h | h
    · rw [containsChain, (cmp_eq_lt_iff x a).mpr h]
      simp only [Bool.false_eq_true, false_iff, List.mem_cons]
      rintro (rfl | hc)
      · exact lt_irrefl x h
      · exact absurd (h.trans ((List.sorted_cons.mp hl).1 x hc)) (lt_irrefl x)
    · subst h
      rw [containsChain, (cmp_eq_eq_iff x x).mpr rfl]
      simp
    · rw [containsChain, (cmp_eq_gt_iff x a).mpr h]
      rw [ih (List.sorted_cons.mp hl).2, List.mem_cons]
      constructor
      · exact Or.inr
      · rintro (rfl | hc)
        · exact absurd h (lt_irrefl x)
        · exact hc

/-- `insertChain` adds exactly the new element to the chain's members. -/
theorem mem_insertChain (y x : T) : ∀ l : List T,
    y ∈ (insertChain x l).1 ↔ y = x ∨ y ∈ l := by
  intro l
  induction l using insertChain.induct x with
  | case1 => simp [insertChain]
  | case2 a rest hab => simp [insertChain, hab]
  | case3 a rest hab =>
    have hax : x = a := by rwa [cmp_eq_eq_iff] at hab
    subst hax
    simp [insertChain, hab]
  | case4 a rest hab ih => simp [insertChain, hab, ih]; tauto

/-- `insertChain` preserves sortedness. -/
theorem sorted_insertChain (x : T) : ∀ l : List T, l.Sorted (· < ·) →
    ((insertChain x l).1).Sorted (· < ·) := by
  intro l
  induction l using insertChain.induct x with
  | case1 => intro _; simp [insertChain]
  | case2 a rest hab =>
    intro hl
    simp only [insertChain, hab]
    rw [cmp_eq_lt_iff] at hab
    rw [List.sorted_cons]
    refine ⟨?_, hl⟩
    intro y hy
    exact lt_of_lt_of_le hab (head_le_of_mem_sorted hl hy)
  | case3 a rest hab => intro hl; simpa [insertChain, hab] using hl
  | case4 a rest hab ih =>
    intro hl
    simp only [insertChain, hab]
    rw [cmp_eq_gt_iff] at hab
    rw [List.sorted_cons] at hl ⊢
    refine ⟨?_, ih hl.2⟩
    intro y hy
    rcases (mem_insertChain y x rest).mp hy with rfl | hy
    · exact hab
    · exact hl.1 y hy

/-- A successful `insertChain` grows the chain by one node. -/
theorem insertChain_length (x : T) : ∀ l : List T,
    (insertChain x l).2 = true → ((insertChain x l).1).length = l.length + 1 := by
  intro l
  induction l using insertChain.induct x with
  | case1 => intro _; simp [insertChain]
  | case2 a rest hab => intro _; simp [insertChain, hab]
  | case3 a rest hab => simp [insertChain, hab]
  | case4 a rest hab ih =>
    simp only [insertChain, hab, List.length_cons]
    intro h
    rw [ih h]

/-- A failed `insertChain` (element present) leaves the chain untouched. -/
theorem insertChain_snd_false (x : T) : ∀ l : List T,
    (insertChain x l).2 = false → (insertChain x l).1 = l := by
  intro l
  induction l using insertChain.induct x with
  | case1 => simp [insertChain]
  | case2 a rest hab => simp [insertChain, hab]
  | case3 a rest hab => simp [insertChain, hab]
  | case4 a rest hab ih =>
    simp only [insertChain, hab]
    intro h
    rw [ih h]

/-- Inserting an element already present in a sorted chain does nothing. -/
theorem insertChain_mem (x : T) : ∀ l : List T, l.Sorted (· < ·) → x ∈ l →
    insertChain x l = (l, false) := by
  intro l
  induction l using insertChain.induct x with
  | case1 => intro _ h; exact absurd h (List.not_mem_nil x)
  | case2 a rest hab =>
    intro hl hm
    rw [cmp_eq_lt_iff] at hab
    exact absurd (head_le_of_mem_sorted hl hm) (not_le_of_lt hab)
  | case3 a rest hab => intro _ _; simp [insertChain, hab]
  | case4 a rest hab ih =>
    intro hl hm
    simp only [insertChain, hab]
    rw [cmp_eq_gt_iff] at hab
    rcases List.mem_cons.mp hm with rfl | hm
    · exact absurd hab (lt_irrefl x)
    · rw [ih (List.sorted_cons.mp hl).2 hm]

/-- Inserting an absent element always splices a node (returns `true`). -/
theorem insertChain_not_mem (x : T) : ∀ l : List T, x ∉ l →
    (insertChain x l).2 = true := by
  intro l
  induction l using insertChain.induct x with
  | case1 => intro _; simp [insertChain]
  | case2 a rest hab => intro _; simp [insertChain, hab]
  | case3 a rest hab =>
    intro hm
    have hax : x = a := by rwa [cmp_eq_eq_iff] at hab
    exact absurd (hax ▸ List.mem_cons_self x rest) hm
  | case4 a rest hab ih =>
    intro hm
    simp only [insertChain, hab]
    exact ih (fun hc => hm (List.mem_cons_of_mem a hc))

/-- A scan that never finds the element leaves the chain untouched and
returns `None`: `remove` is atomic on failure. -/
theorem removeChain_not_contains (x : T) : ∀ l : List T,
    containsChain x l = false → removeChain x l = (l, none) := by
  intro l
  induction l using insertChain.induct x with
  | case1 => intro _; simp [removeChain]
  | case2 a rest hab => intro _; simp [removeChain, hab]
  | case3 a rest hab => intro hc; rw [containsChain, hab] at hc; exact absurd hc (by simp)
  | case4 a rest hab ih =>
    intro hc
    rw [containsChain, hab] at hc
    simp only [removeChain, hab]
    rw [ih hc]

/-- The chain after `removeChain` is a sublist of the original. -/
theorem removeChain_sublist (x : T) : ∀ l : List T,
    List.Sublist ((removeChain x l).1) l := by
  intro l
  induction l using insertChain.induct x with
  | case1 => simp [removeChain]
  | case2 a rest hab => simp [removeChain, hab]
  | case3 a rest hab =>
    simp only [removeChain, hab]
    exact List.sublist_cons_self a rest
  | case4 a rest hab ih =>
    simp only [removeChain, hab]
    exact List.Sublist.cons₂ a ih

/-- A successful `removeChain` returns the target and shrinks the chain by
one node. -/
theorem removeChain_some (x d : T) : ∀ l : List T,
    (removeChain x l).2 = some d →
    d = x ∧ ((removeChain x l).1).length + 1 = l.length := by
  intro l
  induction l using insertChain.induct x with
  | case1 => simp [removeChain]
  | case2 a rest hab => simp [removeChain, hab]
  | case3 a rest hab =>
    have hax : x = a := by rwa [cmp_eq_eq_iff] at hab
    subst hax
    simp only [removeChain, hab, Option.some.injEq, List.length_cons]
    rintro rfl
    exact ⟨rfl, trivial⟩
  | case4 a rest hab ih =>
    simp only [removeChain, hab, List.length_cons]
    intro h
    obtain ⟨h1, h2⟩ := ih h
    exact ⟨h1, by rw [h2]⟩

/-- A failed `removeChain` leaves the chain untouched. -/
theorem removeChain_none (x : T) : ∀ l : List T,
    (removeChain x l).2 = none → (removeChain x l).1 = l := by
  intro l
  induction l using insertChain.induct x with
  | case1 => simp [removeChain]
  | case2 a rest hab => simp [removeChain, hab]
  | case3 a rest hab => simp [removeChain, hab]
  | case4 a rest hab ih =>
    simp only [removeChain, hab]
    intro h
    rw [ih h]

/-- Removing a freshly inserted absent element restores the original chain
and returns the element. -/
theorem removeChain_insertChain (x : T) : ∀ l : List T, l.Sorted (· < ·) → x ∉ l →
    removeChain x ((insertChain x l).1) = (l, some x) := by
  intro l
  induction l using insertChain.induct x with
  | case1 =>
    intro _ _
    simp [insertChain, removeChain, (cmp_eq_eq_iff x x).mpr rfl]
  | case2 a rest hab =>
    intro _ _
    simp [insertChain, hab, removeChain, (cmp_eq_eq_iff x x).mpr rfl]
  | case3 a rest hab =>
    intro _ hm
    have hax : x = a := by rwa [cmp_eq_eq_iff] at hab
    exact absurd (hax ▸ List.mem_cons_self x rest) hm
  | case4 a rest hab ih =>
    intro hl hm
    simp only [insertChain, hab, removeChain]
    rw [ih (List.sorted_cons.mp hl).2 (fun hc => hm (List.mem_cons_of_mem a hc))]

/-- `replaceChain` adds the new element (replacing its equal) to the members. -/
theorem mem_replaceChain (y x : T) : ∀ l : List T,
    y ∈ (replaceChain x l).1 ↔ y = x ∨ y ∈ l := by
  intro l
  induction l using insertChain.induct x with
  | case1 => simp [replaceChain]
  | case2 a rest hab => simp [replaceChain, hab]
  | case3 a rest hab =>
    have hax : x = a := by rwa [cmp_eq_eq_iff] at hab
    subst hax
    simp [replaceChain, hab]
  | case4 a rest hab ih => simp [replaceChain, hab, ih]; tauto

/-- `replaceChain` preserves sortedness. -/
theorem sorted_replaceChain (x : T) : ∀ l : List T, l.Sorted (· < ·) →
    ((replaceChain x l).1).Sorted (· < ·) := by
  intro l
  induction l using insertChain.induct x with
  | case1 => intro _; simp [replaceChain]
  | case2 a rest hab =>
    intro hl
    simp only [replaceChain, hab]
    rw [cmp_eq_lt_iff] at hab
    rw [List.sorted_cons]
    refine ⟨?_, hl⟩
    intro y hy
    exact lt_of_lt_of_le hab (head_le_of_mem_sorted hl hy)
  | case3 a rest hab =>
    intro hl
    have hax : x = a := by rwa [cmp_eq_eq_iff] at hab
    subst hax
    simpa only [replaceChain, hab] using hl
  | case4 a rest hab ih =>
    intro hl
    simp only [replaceChain, hab]
    rw [cmp_eq_gt_iff] at hab
    rw [List.sorted_cons] at hl ⊢
    refine ⟨?_, ih hl.2⟩
    intro y hy
    rcases (mem_replaceChain y x rest).mp hy with rfl | hy
    · exact hab
    · exact hl.1 y hy

/-- `replaceChain` keeps the length when it replaces, grows it by one when
it splices. -/
theorem replaceChain_length (x : T) : ∀ l : List T,
    ((replaceChain x l).1).length =
      if (replaceChain x l).2.isSome then l.length else l.length + 1 := by
  intro l
  induction l using insertChain.induct x with
  | case1 => simp [replaceChain]
  | case2 a rest hab => simp [replaceChain, hab]
  | case3 a rest hab => simp [replaceChain, hab]
  | case4 a rest hab ih =>
    simp only [replaceChain, hab, List.length_cons, ih]
    by_cases h : (replaceChain x rest).2.isSome = true
    · simp [h]
    · simp [h]

/-- Under sortedness the `is_subset` walk decides chain inclusion. -/
theorem subsetChain_iff : ∀ i j : List T, i.Sorted (· < ·) → j.Sorted (· < ·) →
    (subsetChain i j = true ↔ ∀ x ∈ i, x ∈ j) := by
  intro i j
  induction i, j using subsetChain.induct with
  | case1 a i b j hab =>
    intro hi hj
    simp only [subsetChain, hab]
    rw [cmp_eq_lt_iff] at hab
    simp only [Bool.false_eq_true, false_iff]
    intro hc
    exact absurd (head_le_of_mem_sorted hj (hc a (List.mem_cons_self a i)))
      (not_le_of_lt hab)
  | case2 a i b j hab ih =>
    intro hi hj
    simp only [subsetChain, hab]
    rw [cmp_eq_gt_iff] at hab
    rw [ih hi (List.sorted_cons.mp hj).2]
    constructor
    · intro hc x hx
      exact List.mem_cons_of_mem b (hc x hx)
    · intro hc x hx
      rcases List.mem_cons.mp (hc x hx) with heq | h
      · exact absurd (lt_of_lt_of_le hab (head_le_of_mem_sorted hi hx))
          (fun hlt => lt_irrefl b (heq ▸ hlt))
      · exact h
  | case3 a i b j hab ih =>
    intro hi hj
    simp only [subsetChain, hab]
    have hab2 : a = b := by rwa [cmp_eq_eq_iff] at hab
    subst hab2
    rw [ih (List.sorted_cons.mp hi).2 (List.sorted_cons.mp hj).2]
    constructor
    · intro hc x hx
      rcases List.mem_cons.mp hx with rfl | hx
      · exact List.mem_cons_self x j
      · exact List.mem_cons_of_mem a (hc x hx)
    · intro hc x hx
      rcases List.mem_cons.mp (hc x (List.mem_cons_of_mem a hx)) with heq | h
      · exact absurd ((List.sorted_cons.mp hi).1 x hx)
          (fun hlt => lt_irrefl a (heq ▸ hlt))
      · exact h
  | case4 i j h =>
    intro hi hj
    cases i with
    | nil => simp [subsetChain]
    | cons a i =>
      cases j with
      | nil =>
        have h1 : subsetChain (a :: i) ([] : List T) = false := by simp [subsetChain]
        rw [h1]
        simp only [Bool.false_eq_true, false_iff]
        intro hc
        exact absurd (hc a (List.mem_cons_self a i)) (List.not_mem_nil a)
      | cons b j => exact (h a i b j rfl rfl).elim

/-- The lockstep comparison returns `Equal` exactly for identical chains. -/
theorem cmpChain_eq_iff : ∀ i j : List T, cmpChain i j = Ordering.eq ↔ i = j := by
  intro i j
  induction i, j using cmpChain.induct with
  | case1 => simp [cmpChain]
  | case2 b j => simp [cmpChain]
  | case3 a i => simp [cmpChain]
  | case4 a i b j hab =>
    simp only [cmpChain, hab]
    rw [cmp_eq_lt_iff] at hab
    simp only [List.cons.injEq]
    constructor
    · intro hc; exact absurd hc (by simp)
    · rintro ⟨rfl, _⟩; exact absurd hab (lt_irrefl a)
  | case5 a i b j hab =>
    simp only [cmpChain, hab]
    rw [cmp_eq_gt_iff] at hab
    simp only [List.cons.injEq]
    constructor
    · intro hc; exact absurd hc (by simp)
    · rintro ⟨rfl, _⟩; exact absurd hab (lt_irrefl a)
  | case6 a i b j hab ih =>
    have hab2 : a = b := by rwa [cmp_eq_eq_iff] at hab
    subst hab2
    simp only [cmpChain, hab, List.cons.injEq, true_and]
    exact ih

/-- After a common prefix, the first differing pair of elements decides the
lockstep comparison. -/
theorem cmpChain_first_diff (a b : T) (i j : List T) (hab : a ≠ b) :
    ∀ p : List T, cmpChain (p ++ a :: i) (p ++ b :: j) = cmp a b := by
  intro p
  induction p with
  | nil =>
    rcases lt_trichotomy a b with h | h | h
    · rw [List.nil_append, List.nil_append, cmpChain, (cmp_eq_lt_iff a b).mpr h]
    · exact absurd h hab
    · rw [List.nil_append, List.nil_append, cmpChain, (cmp_eq_gt_iff a b).mpr h]
  | cons c p ih =>
    rw [List.cons_append, List.cons_append, cmpChain, cmp_self_eq_eq]
    exact ih

/-- A chain that is a proper prefix compares `Less`. -/
theorem cmpChain_proper_lt (b : T) (j : List T) :
    ∀ p : List T, cmpChain p (p ++ b :: j) = Ordering.lt := by
  intro p
  induction p with
  | nil => rw [List.nil_append, cmpChain]
  | cons c p ih =>
    rw [List.cons_append, cmpChain, cmp_self_eq_eq]
    exact ih

/-- A chain with a proper prefix on the right compares `Greater`. -/
theorem cmpChain_proper_gt (a : T) (i : List T) :
    ∀ p : List T, cmpChain (p ++ a :: i) p = Ordering.gt := by
  intro p
  induction p with
  | nil => rw [List.nil_append, cmpChain]
  | cons c p ih =>
    rw [List.cons_append, cmpChain, cmp_self_eq_eq]
    exact ih

omit [LinearOrder T] in
/-- The clone loop copies the chain node for node. -/
theorem cloneChain_eq : ∀ l : List T, cloneChain l = l := by
  intro l
  induction l with
  | nil => rfl
  | cons a rest ih => rw [cloneChain, ih]

omit [LinearOrder T] in
/-- Collecting the borrowing iterator yields the chain in order. -/
theorem Iter.collect_eq : ∀ (l : List T) (n : Nat), Iter.collect { link := l, len := n } = l := by
  intro l
  induction l with
  | nil => intro n; simp [Iter.collect]
  | cons a rest ih =>
    intro n
    rw [Iter.collect, ih]

/-- Reading off the components of `Set::insert`. -/
theorem Set.insert_head (s : Set T) (x : T) :
    (s.insert x).1.head = (insertChain x s.head).1 := rfl

/-- The `bool` returned by `Set::insert`. -/
theorem Set.insert_snd (s : Set T) (x : T) :
    (s.insert x).2 = (insertChain x s.head).2 := rfl

/-- Reading off the chain of `Set::replace`. -/
theorem Set.replace_head (s : Set T) (x : T) :
    (s.replace x).1.head = (replaceChain x s.head).1 := rfl

/-- Reading off the chain of `Set::remove`. -/
theorem Set.remove_head (s : Set T) (x : T) :
    (s.remove x).1.head = (removeChain x s.head).1 := rfl

/-- The value returned by `Set::remove`. -/
theorem Set.remove_snd (s : Set T) (x : T) :
    (s.remove x).2 = (removeChain x s.head).2 := rfl

/-- `insert` preserves the representation invariant. -/
theorem Set.wf_insert (s : Set T) (x : T) (h : s.wf) : ((s.insert x).1).wf := by
  obtain ⟨hs, hl⟩ := h
  refine ⟨sorted_insertChain x s.head hs, ?_⟩
  show (if (insertChain x s.head).2 then s.len + 1 else s.len) =
    ((insertChain x s.head).1).length
  rcases hb : (insertChain x s.head).2 with _ | _
  · rw [if_neg (by simp), insertChain_snd_false x s.head hb, hl]
  · rw [if_pos rfl, insertChain_length x s.head hb, hl]

/-- `replace` preserves the representation invariant. -/
theorem Set.wf_replace (s : Set T) (x : T) (h : s.wf) : ((s.replace x).1).wf := by
  obtain ⟨hs, hl⟩ := h
  refine ⟨sorted_replaceChain x s.head hs, ?_⟩
  show (if (replaceChain x s.head).2.isSome then s.len else s.len + 1) =
    ((replaceChain x s.head).1).length
  rw [replaceChain_length x s.head, hl]

/-- `remove` preserves the representation invariant. -/
theorem Set.wf_remove (s : Set T) (x : T) (h : s.wf) : ((s.remove x).1).wf := by
  obtain ⟨hs, hl⟩ := h
  refine ⟨hs.sublist (removeChain_sublist x s.head), ?_⟩
  show (if (removeChain x s.head).2.isSome then s.len - 1 else s.len) =
    ((removeChain x s.head).1).length
  rcases hb : (removeChain x s.head).2 with _ | d
  · rw [if_neg (by simp [hb]), removeChain_none x s.head (by rw [hb]), hl]
  · obtain ⟨_, h2⟩ := removeChain_some x d s.head (by rw [hb])
    rw [if_pos (by simp [hb]), hl, ← h2]
    simp

/-- `clone` preserves the representation invariant. -/
theorem Set.wf_clone (s : Set T) (h : s.wf) : s.clone.wf := by
  obtain ⟨hs, hl⟩ := h
  unfold Set.clone
  rw [cloneChain_eq]
  exact ⟨hs, hl⟩

/-- Unfolding one step of `extend`. -/
theorem Set.extend_cons (s : Set T) (x : T) (l : List T) :
    Set.extend s (x :: l) = Set.extend ((s.insert x).1) l := rfl

/-- `extend` (repeated `insert`) preserves the representation invariant. -/
theorem Set.wf_extend : ∀ (l : List T) (s : Set T), s.wf → (s.extend l).wf := by
  intro l
  induction l with
  | nil => intro s h; exact h
  | cons x l ih =>
    intro s h
    rw [Set.extend_cons]
    exact ih _ (Set.wf_insert s x h)

/-- The members after `extend` are the old members plus the fed elements. -/
theorem Set.mem_extend (y : T) : ∀ (l : List T) (s : Set T),
    y ∈ (s.extend l).head ↔ y ∈ s.head ∨ y ∈ l := by
  intro l
  induction l with
  | nil => intro s; simp [Set.extend]
  | cons x l ih =>
    intro s
    rw [Set.extend_cons, ih, Set.insert_head, mem_insertChain]
    simp only [List.mem_cons]
    tauto

/-- `from_iter` builds a well-formed set. -/
theorem Set.wf_fromList (l : List T) : (Set.fromList l).wf :=
  Set.wf_extend l Set.new ⟨List.sorted_nil, rfl⟩

/-- The members of `from_iter l` are the elements of `l`. -/
theorem Set.mem_fromList (y : T) (l : List T) :
    y ∈ (Set.fromList l).head ↔ y ∈ l := by
  rw [Set.fromList, Set.mem_extend]
  show y ∈ ([] : List T) ∨ _ ↔ _
  simp

/-- The cached length of `from_iter l` counts the distinct elements of `l`. -/
theorem Set.len_fromList (l : List T) :
    (Set.fromList l).len = l.toFinset.card := by
  obtain ⟨hs, hl⟩ := Set.wf_fromList l
  rw [hl, ← List.toFinset_card_of_nodup hs.nodup]
  congr 1
  ext y
  simp only [List.mem_toFinset]
  exact Set.mem_fromList y l

omit [LinearOrder T] in
/-- A cursor that no longer holds a `Link` makes `insert` abort. -/
theorem CursorMut.insert_none (c : CursorMut T) (x : T) (h : c.link = none) :
    c.insert x = none := by
  rcases c with ⟨p, link, n⟩
  cases link with
  | none => rfl
  | some r => exact absurd h (by simp)

/-- The cursor loop of `Set::insert` always succeeds when started on a held
`Link`, and computes `insertChain`. -/
theorem insertLoop_spec (x : T) : ∀ (r p : List T) (n : Nat),
    ∃ c2 : CursorMut T,
      insertLoop x { passed := p, link := some r, len := n } =
        some (c2, (insertChain x r).2) ∧
      c2.toSet = { head := p ++ (insertChain x r).1,
                   len := if (insertChain x r).2 then n + 1 else n } := by
  intro r
  induction r with
  | nil =>
    intro p n
    refine ⟨{ passed := p, link := some [x], len := n + 1 }, ?_, ?_⟩
    · simp [insertLoop, CursorMut.insert, insertChain]
    · simp [CursorMut.toSet, insertChain]
  | cons a r ih =>
    intro p n
    rcases lt_trichotomy x a with h | h | h
    · refine ⟨{ passed := p, link := some (x :: a :: r), len := n + 1 }, ?_, ?_⟩
      · simp [insertLoop, (cmp_eq_lt_iff x a).mpr h, CursorMut.insert, insertChain]
      · simp [CursorMut.toSet, insertChain, (cmp_eq_lt_iff x a).mpr h]
    · subst h
      refine ⟨{ passed := p, link := some (x :: r), len := n }, ?_, ?_⟩
      · simp [insertLoop, (cmp_eq_eq_iff x x).mpr rfl, insertChain]
      · simp [CursorMut.toSet, insertChain, (cmp_eq_eq_iff x x).mpr rfl]
    · obtain ⟨c2, h1, h2⟩ := ih (p ++ [a]) n
      refine ⟨c2, ?_, ?_⟩
      · rw [insertLoop.eq_1, (cmp_eq_gt_iff x a).mpr h]
        show insertLoop x (CursorMut.advance _) = _
        rw [CursorMut.advance.eq_1]
        rw [h1]
        simp [insertChain, (cmp_eq_gt_iff x a).mpr h]
      · rw [h2]
        simp [insertChain, (cmp_eq_gt_iff x a).mpr h]

/-- The cursor loop of `Set::replace` always succeeds when started on a held
`Link`, and computes `replaceChain`. -/
theorem replaceLoop_spec (x : T) : ∀ (r p : List T) (n : Nat),
    ∃ c2 : CursorMut T,
      replaceLoop x { passed := p, link := some r, len := n } =
        some (c2, (replaceChain x r).2) ∧
      c2.toSet = { head := p ++ (replaceChain x r).1,
                   len := if (replaceChain x r).2.isSome then n else n + 1 } := by
  intro r
  induction r with
  | nil =>
    intro p n
    refine ⟨{ passed := p, link := some [x], len := n + 1 }, ?_, ?_⟩
    · simp [replaceLoop, CursorMut.insert, replaceChain]
    · simp [CursorMut.toSet, replaceChain]
  | cons a r ih =>
    intro p n
    rcases lt_trichotomy x a with h | h | h
    · refine ⟨{ passed := p, link := some (x :: a :: r), len := n + 1 }, ?_, ?_⟩
      · simp [replaceLoop, (cmp_eq_lt_iff x a).mpr h, CursorMut.insert, replaceChain]
      · simp [CursorMut.toSet, replaceChain, (cmp_eq_lt_iff x a).mpr h]
    · subst h
      refine ⟨{ passed := p, link := some (x :: r), len := n }, ?_, ?_⟩
      · simp [replaceLoop, (cmp_eq_eq_iff x x).mpr rfl, replaceChain]
      · simp [CursorMut.toSet, replaceChain, (cmp_eq_eq_iff x x).mpr rfl]
    · obtain ⟨c2, h1, h2⟩ := ih (p ++ [a]) n
      refine ⟨c2, ?_, ?_⟩
      · rw [replaceLoop.eq_1, (cmp_eq_gt_iff x a).mpr h]
        show replaceLoop x (CursorMut.advance _) = _
        rw [CursorMut.advance.eq_1]
        rw [h1]
        simp [replaceChain, (cmp_eq_gt_iff x a).mpr h]
      · rw [h2]
        simp [replaceChain, (cmp_eq_gt_iff x a).mpr h]

omit [LinearOrder T] in
/-- The trailing remainder loop appends its elements behind the cursor. -/
theorem appendLoop_spec : ∀ (l p : List T) (n : Nat),
    appendLoop l { passed := p, link := some [], len := n } =
      some { passed := p ++ l, link := some [], len := n + l.length } := by
  intro l
  induction l with
  | nil => intro p n; simp [appendLoop]
  | cons a l ih =>
    intro p n
    rw [appendLoop]
    show Option.bind (some _) _ = _
    rw [Option.bind]
    show appendLoop l (CursorMut.advance _) = _
    rw [CursorMut.advance.eq_1, ih]
    simp only [Option.some.injEq, CursorMut.mk.injEq, List.length_cons]
    refine ⟨by simp, trivial, by omega⟩

/-- The cursor-and-iterators loop of `Set::union` always succeeds and
appends `unionChain`. -/
theorem unionLoop_spec : ∀ (i j p : List T) (n : Nat),
    unionLoop i j { passed := p, link := some [], len := n } =
      some { passed := p ++ unionChain i j, link := some [],
             len := n + (unionChain i j).length } := by
  intro i j
  induction i, j using unionChain.induct with
  | case1 a i b j hab ih =>
    intro p n
    rw [unionLoop.eq_1, hab]
    show Option.bind (some _) _ = _
    rw [Option.bind]
    show unionLoop i (b :: j) (CursorMut.advance _) = _
    rw [CursorMut.advance.eq_1, ih]
    simp only [unionChain, hab, Option.some.injEq, CursorMut.mk.injEq, List.length_cons]
    refine ⟨by simp, trivial, by omega⟩
  | case2 a i b j hab ih =>
    intro p n
    rw [unionLoop.eq_1, hab]
    show Option.bind (some _) _ = _
    rw [Option.bind]
    show unionLoop (a :: i) j (CursorMut.advance _) = _
    rw [CursorMut.advance.eq_1, ih]
    simp only [unionChain, hab, Option.some.injEq, CursorMut.mk.injEq, List.length_cons]
    refine ⟨by simp, trivial, by omega⟩
  | case3 a i b j hab ih =>
    intro p n
    rw [unionLoop.eq_1, hab]
    show Option.bind (some _) _ = _
    rw [Option.bind]
    show unionLoop i j (CursorMut.advance _) = _
    rw [CursorMut.advance.eq_1, ih]
    simp only [unionChain, hab, Option.some.injEq, CursorMut.mk.injEq, List.length_cons]
    refine ⟨by simp, trivial, by omega⟩
  | case4 j =>
    intro p n
    rw [unionLoop.eq_2]
    · show Option.bind (appendLoop [] _) _ = _
      rw [appendLoop, Option.bind, appendLoop_spec]
      simp [unionChain]
    · intro a i b j2 h; exact absurd h (by simp)
  | case5 i h =>
    cases i with
    | nil => exact (h rfl).elim
    | cons a i =>
      intro p n
      rw [unionLoop.eq_2]
      · show Option.bind (appendLoop (a :: i) _) _ = _
        rw [appendLoop_spec, Option.bind]
        show appendLoop [] _ = _
        rw [appendLoop]
        simp [unionChain]
      · intro a2 i2 b j2 _ h2; exact absurd h2 (by simp)

/-- The cursor-and-iterators loop of `Set::intersection` always succeeds and
appends `interChain`. -/
theorem interLoop_spec : ∀ (i j p : List T) (n : Nat),
    interLoop i j { passed := p, link := some [], len := n } =
      some { passed := p ++ interChain i j, link := some [],
             len := n + (interChain i j).length } := by
  intro i j
  induction i, j using interChain.induct with
  | case1 a i b j hab ih =>
    intro p n
    rw [interLoop.eq_1, hab, ih]
    simp [interChain, hab]
  | case2 a i b j hab ih =>
    intro p n
    rw [interLoop.eq_1, hab, ih]
    simp [interChain, hab]
  | case3 a i b j hab ih =>
    intro p n
    rw [interLoop.eq_1, hab]
    show Option.bind (some _) _ = _
    rw [Option.bind]
    show interLoop i j (CursorMut.advance _) = _
    rw [CursorMut.advance.eq_1, ih]
    simp only [interChain, hab, Option.some.injEq, CursorMut.mk.injEq, List.length_cons]
    refine ⟨by simp, trivial, by omega⟩
  | case4 i j h =>
    intro p n
    rw [interLoop.eq_2]
    · cases i with
      | nil => simp [interChain]
      | cons a i =>
        cases j with
        | nil => simp [interChain]
        | cons b j => exact (h a i b j rfl rfl).elim
    · intro a i2 b j2 h1 h2
      exact h a i2 b j2 h1 h2

/-- The cursor-and-iterators loop of `Set::difference` always succeeds and
appends `diffChain`. -/
theorem diffLoop_spec : ∀ (i j p : List T) (n : Nat),
    diffLoop i j { passed := p, link := some [], len := n } =
      some { passed := p ++ diffChain i j, link := some [],
             len := n + (diffChain i j).length } := by
  intro i j
  induction i, j using diffChain.induct with
  | case1 a i b j hab ih =>
    intro p n
    rw [diffLoop.eq_1, hab]
    show Option.bind (some _) _ = _
    rw [Option.bind]
    show diffLoop i (b :: j) (CursorMut.advance _) = _
    rw [CursorMut.advance.eq_1, ih]
    simp only [diffChain, hab, Option.some.injEq, CursorMut.mk.injEq, List.length_cons]
    refine ⟨by simp, trivial, by omega⟩
  | case2 a i b j hab ih =>
    intro p n
    rw [diffLoop.eq_1, hab, ih]
    simp [diffChain, hab]
  | case3 a i b j hab ih =>
    intro p n
    rw [diffLoop.eq_1, hab, ih]
    simp [diffChain, hab]
  | case4 i j h =>
    intro p n
    rw [diffLoop.eq_2]
    · cases j with
      | nil => rw [appendLoop_spec]; simp [diffChain]
      | cons b j =>
        cases i with
        | nil =>
          rw [appendLoop]
          simp [diffChain]
        | cons a i => exact (h a i b j rfl rfl).elim
    · intro a i2 b j2 h1 h2
      exact h a i2 b j2 h1 h2

/-- The cursor-and-iterators loop of `Set::symmetric_difference` always
succeeds and appends `symmDiffChain`. -/
theorem symmDiffLoop_spec : ∀ (i j p : List T) (n : Nat),
    symmDiffLoop i j { passed := p, link := some [], len := n } =
      some { passed := p ++ symmDiffChain i j, link := some [],
             len := n + (symmDiffChain i j).length } := by
  intro i j
  induction i, j using symmDiffChain.induct with
  | case1 a i b j hab ih =>
    intro p n
    rw [symmDiffLoop.eq_1, hab]
    show Option.bind (some _) _ = _
    rw [Option.bind]
    show symmDiffLoop i (b :: j) (CursorMut.advance _) = _
    rw [CursorMut.advance.eq_1, ih]
    simp only [symmDiffChain, hab, Option.some.injEq, CursorMut.mk.injEq, List.length_cons]
    refine ⟨by simp, trivial, by omega⟩
  | case2 a i b j hab ih =>
    intro p n
    rw [symmDiffLoop.eq_1, hab]
    show Option.bind (some _) _ = _
    rw [Option.bind]
    show symmDiffLoop (a :: i) j (CursorMut.advance _) = _
    rw [CursorMut.advance.eq_1, ih]
    simp only [symmDiffChain, hab, Option.some.injEq, CursorMut.mk.injEq, List.length_cons]
    refine ⟨by simp, trivial, by omega⟩
  | case3 a i b j hab ih =>
    intro p n
    rw [symmDiffLoop.eq_1, hab, ih]
    simp [symmDiffChain, hab]
  | case4 j =>
    intro p n
    rw [symmDiffLoop.eq_2]
    · show Option.bind (appendLoop [] _) _ = _
      rw [appendLoop, Option.bind, appendLoop_spec]
      simp [symmDiffChain]
    · intro a i b j2 h; exact absurd h (by simp)
  | case5 i h =>
    cases i with
    | nil => exact (h rfl).elim
    | cons a i =>
      intro p n
      rw [symmDiffLoop.eq_2]
      · show Option.bind (appendLoop (a :: i) _) _ = _
        rw [appendLoop_spec, Option.bind]
        show appendLoop [] _ = _
        rw [appendLoop]
        simp [symmDiffChain]
      · intro a2 i2 b j2 _ h2; exact absurd h2 (by simp)

omit [LinearOrder T] in
/-- Splitting the lengths of a chain by a predicate. -/
theorem length_filter_not (pred : T → Bool) : ∀ l : List T,
    (l.filter pred).length + (l.filter (fun a => !pred a)).length = l.length := by
  intro l
  induction l with
  | nil => rfl
  | cons a l ih => by_cases h : pred a = true <;> simp [List.filter_cons, h] <;> omega

omit [LinearOrder T] in
/-- Every chain is a failing prefix followed by the first passing element,
or fails the predicate throughout. -/
theorem first_hit (pred : T → Bool) : ∀ r : List T,
    (∀ a ∈ r, pred a = false) ∨
    ∃ u d v, r = u ++ d :: v ∧ (∀ a ∈ u, pred a = false) ∧ pred d = true := by
  intro r
  induction r with
  | nil => exact Or.inl (by simp)
  | cons a r ih =>
    by_cases h : pred a = true
    · exact Or.inr ⟨[], a, r, by simp, by simp, h⟩
    · rcases ih with hl | ⟨u, d, v, h1, h2, h3⟩
      · refine Or.inl ?_
        intro b hb
        rcases List.mem_cons.mp hb with rfl | hb
        · simpa using h
        · exact hl b hb
      · refine Or.inr ⟨a :: u, d, v, by rw [h1, List.cons_append], ?_, h3⟩
        intro b hb
        rcases List.mem_cons.mp hb with rfl | hb
        · simpa using h
        · exact h2 b hb

omit [LinearOrder T] in
/-- A `DrainFilter::next` scan over a chain that fails the predicate
throughout advances to the end and yields nothing. -/
theorem DrainFilter.next_no_hit (pred : T → Bool) : ∀ (r p : List T) (n m : Nat),
    (∀ a ∈ r, pred a = false) →
    DrainFilter.next pred
        { cursor := { passed := p, link := some r, len := n }, len := m } =
      (none, { cursor := { passed := p ++ r, link := some ([] : List T), len := n },
               len := m - r.length }) := by
  intro r
  induction r with
  | nil =>
    intro p n m _
    simp [DrainFilter.next]
  | cons a r ih =>
    intro p n m h
    have ha : pred a = false := h a (List.mem_cons_self a r)
    rw [DrainFilter.next.eq_1]
    rw [if_neg (by simp [ha])]
    show DrainFilter.next pred
      { cursor := CursorMut.advance _, len := m - 1 } = _
    rw [CursorMut.advance.eq_1]
    rw [ih (p ++ [a]) n (m - 1) (fun b hb => h b (List.mem_cons_of_mem a hb))]
    simp [Nat.sub_sub]
    omega

omit [LinearOrder T] in
/-- A `DrainFilter::next` scan removes and yields the first element
satisfying the predicate, advancing past the failing prefix. -/
theorem DrainFilter.next_hit (pred : T → Bool) : ∀ (u : List T) (d : T) (v p : List T)
    (n m : Nat), (∀ a ∈ u, pred a = false) → pred d = true →
    DrainFilter.next pred
        { cursor := { passed := p, link := some (u ++ d :: v), len := n }, len := m } =
      (some d, { cursor := { passed := p ++ u, link := some v, len := n - 1 },
                 len := m - (u.length + 1) }) := by
  intro u
  induction u with
  | nil =>
    intro d v p n m _ hd
    rw [List.nil_append, DrainFilter.next.eq_1, if_pos hd]
    rw [CursorMut.remove.eq_1]
    simp
  | cons a u ih =>
    intro d v p n m hu hd
    have ha : pred a = false := hu a (List.mem_cons_self a u)
    rw [List.cons_append, DrainFilter.next.eq_1, if_neg (by simp [ha])]
    show DrainFilter.next pred { cursor := CursorMut.advance _, len := m - 1 } = _
    rw [CursorMut.advance.eq_1]
    rw [ih d v (p ++ [a]) n (m - 1) (fun b hb => hu b (List.mem_cons_of_mem a hb)) hd]
    simp [Nat.sub_sub]
    omega

omit [LinearOrder T] in
/-- The first `k` `next` calls of a drain yield the first `k` elements
satisfying the predicate, in chain order. -/
theorem DrainFilter.runK_yield (pred : T → Bool) : ∀ (N : Nat) (r : List T),
    r.length ≤ N → ∀ (k : Nat) (p : List T) (n m : Nat),
    (DrainFilter.runK pred
        { cursor := { passed := p, link := some r, len := n }, len := m } k).1 =
      (r.filter pred).take k := by
  intro N
  induction N with
  | zero =>
    intro r hr k p n m
    have hr0 : r = [] := List.length_eq_zero.mp (Nat.le_zero.mp hr)
    subst hr0
    cases k with
    | zero => rfl
    | succ k =>
      rw [DrainFilter.runK, DrainFilter.next_no_hit pred [] p n m (by simp)]
      simp
  | succ N ih =>
    intro r hr k p n m
    cases k with
    | zero => rfl
    | succ k =>
      rcases first_hit pred r with hno | ⟨u, d, v, hr2, hu, hd⟩
      · rw [DrainFilter.runK, DrainFilter.next_no_hit pred r p n m hno]
        have hf : r.filter pred = [] := List.filter_eq_nil_iff.mpr (by simpa using hno)
        simp [hf]
      · subst hr2
        rw [DrainFilter.runK, DrainFilter.next_hit pred u d v p n m hu hd]
        have hv : v.length ≤ N := by
          rw [List.length_append, List.length_cons] at hr
          omega
        have hfu : u.filter pred = [] := List.filter_eq_nil_iff.mpr (by simpa using hu)
        simp only [ih v hv k (p ++ u) (n - 1) (m - (u.length + 1)),
          List.filter_append, hfu, List.filter_cons_of_pos hd]
        simp

omit [LinearOrder T] in
/-- After `k` `next` calls the drain's cursor sits behind the kept prefix of
the scanned part of the chain, with the set's length counter decremented
once per removed node. -/
theorem DrainFilter.runK_state (pred : T → Bool) : ∀ (N : Nat) (r : List T),
    r.length ≤ N → ∀ (k : Nat) (p : List T) (n m : Nat),
    ∃ q r2 m2, r = q ++ r2 ∧
      (DrainFilter.runK pred
          { cursor := { passed := p, link := some r, len := n }, len := m } k).2 =
        { cursor := { passed := p ++ q.filter (fun a => !pred a), link := some r2,
                      len := n - (q.filter pred).length }, len := m2 } := by
  intro N
  induction N with
  | zero =>
    intro r hr k p n m
    have hr0 : r = [] := List.length_eq_zero.mp (Nat.le_zero.mp hr)
    subst hr0
    cases k with
    | zero => exact ⟨[], [], m, by simp, by simp [DrainFilter.runK]⟩
    | succ k =>
      refine ⟨[], [], m, by simp, ?_⟩
      rw [DrainFilter.runK, DrainFilter.next_no_hit pred [] p n m (by simp)]
      simp
  | succ N ih =>
    intro r hr k p n m
    cases k with
    | zero => exact ⟨[], r, m, by simp, by simp [DrainFilter.runK]⟩
    | succ k =>
      rcases first_hit pred r with hno | ⟨u, d, v, hr2, hu, hd⟩
      · refine ⟨r, [], m - r.length, by simp, ?_⟩
        rw [DrainFilter.runK, DrainFilter.next_no_hit pred r p n m hno]
        have h1 : r.filter pred = [] := List.filter_eq_nil_iff.mpr (by simpa using hno)
        have h2 : r.filter (fun a => !pred a) = r :=
          List.filter_eq_self.mpr (fun a ha => by simp [hno a ha])
        simp [h1, h2]
      · subst hr2
        have hv : v.length ≤ N := by
          rw [List.length_append, List.length_cons] at hr
          omega
        obtain ⟨q, r2, m2, hsplit, hstate⟩ :=
          ih v hv k (p ++ u) (n - 1) (m - (u.length + 1))
        refine ⟨u ++ d :: q, r2, m2, ?_, ?_⟩
        · rw [hsplit]
          simp
        · rw [DrainFilter.runK, DrainFilter.next_hit pred u d v p n m hu hd]
          have hfu : u.filter pred = [] := List.filter_eq_nil_iff.mpr (by simpa using hu)
          have hfu2 : u.filter (fun a => !pred a) = u :=
            List.filter_eq_self.mpr (fun a ha => by simp [hu a ha])
          have hdq : (d :: q).filter (fun a => !pred a) = q.filter (fun a => !pred a) := by
            simp [hd]
          have hdq2 : (d :: q).filter pred = d :: q.filter pred := by
            simp [hd]
          show (DrainFilter.runK pred _ k).2 = _
          rw [hstate]
          simp only [List.filter_append, hfu, hfu2, hdq, hdq2, DrainFilter.mk.injEq,
            CursorMut.mk.injEq, List.nil_append, List.length_cons, List.length_nil]
          refine ⟨⟨by simp, trivial, by omega⟩, trivial⟩

omit [LinearOrder T] in
/-- Driving the drain to exhaustion from any resting point leaves exactly
the failing elements behind the cursor, the set length counter reduced by
the number of removed nodes. -/
theorem DrainFilter.drain_to_end (pred : T → Bool) : ∀ (N : Nat) (r : List T),
    r.length ≤ N → ∀ (p : List T) (n m fuel : Nat),
    (r.filter pred).length < fuel →
    ∃ m2, (DrainFilter.runK pred
        { cursor := { passed := p, link := some r, len := n }, len := m } fuel).2 =
      { cursor := { passed := p ++ r.filter (fun a => !pred a), link := some ([] : List T),
                    len := n - (r.filter pred).length }, len := m2 } := by
  intro N
  induction N with
  | zero =>
    intro r hr p n m fuel hfuel
    have hr0 : r = [] := List.length_eq_zero.mp (Nat.le_zero.mp hr)
    subst hr0
    cases fuel with
    | zero => exact absurd hfuel (by simp)
    | succ fuel =>
      refine ⟨m, ?_⟩
      rw [DrainFilter.runK, DrainFilter.next_no_hit pred [] p n m (by simp)]
      simp
  | succ N ih =>
    intro r hr p n m fuel hfuel
    cases fuel with
    | zero => exact absurd hfuel (by omega)
    | succ fuel =>
      rcases first_hit pred r with hno | ⟨u, d, v, hr2, hu, hd⟩
      · have h1 : r.filter pred = [] := List.filter_eq_nil_iff.mpr (by simpa using hno)
        have h2 : r.filter (fun a => !pred a) = r :=
          List.filter_eq_self.mpr (fun a ha => by simp [hno a ha])
        refine ⟨m - r.length, ?_⟩
        rw [DrainFilter.runK, DrainFilter.next_no_hit pred r p n m hno]
        simp [h1, h2]
      · subst hr2
        have hv : v.length ≤ N := by
          rw [List.length_append, List.length_cons] at hr
          omega
        have hfu : u.filter pred = [] := List.filter_eq_nil_iff.mpr (by simpa using hu)
        have hfu2 : u.filter (fun a => !pred a) = u :=
          List.filter_eq_self.mpr (fun a ha => by simp [hu a ha])
        have hflen : ((u ++ d :: v).filter pred).length = (v.filter pred).length + 1 := by
          rw [List.filter_append, hfu, List.filter_cons_of_pos hd]
          simp
        have hv2 : (v.filter pred).length < fuel := by omega
        obtain ⟨m2, hstate⟩ := ih v hv (p ++ u) (n - 1) (m - (u.length + 1)) fuel hv2
        refine ⟨m2, ?_⟩
        rw [DrainFilter.runK, DrainFilter.next_hit pred u d v p n m hu hd]
        have hdv : (d :: v).filter (fun a => !pred a) = v.filter (fun a => !pred a) := by
          simp [hd]
        have hdv2 : (d :: v).filter pred = d :: v.filter pred := by
          simp [hd]
        show (DrainFilter.runK pred _ fuel).2 = _
        rw [hstate]
        simp only [List.filter_append, hfu, hfu2, hdv, hdv2, DrainFilter.mk.injEq,
          CursorMut.mk.injEq, List.nil_append, List.length_cons, List.length_nil]
        refine ⟨⟨by simp, trivial, by omega⟩, trivial⟩

omit [LinearOrder T] in
/-- Unfolding `Set::drain_filter`. -/
theorem Set.drain_filter_eq (s : Set T) :
    s.drain_filter = { cursor := { passed := [], link := some s.head, len := s.len },
                       len := s.len } := rfl

omit [LinearOrder T] in
/-- The end-to-end behaviour of `drain_filter`: any number of `next` calls
followed by the `Drop` pass yields the passing prefix, and leaves the set
holding exactly the failing elements in their original order. -/
theorem drainFilter_run (pred : T → Bool) (s : Set T) (k : Nat)
    (h : s.len = s.head.length) :
    (DrainFilter.runK pred s.drain_filter k).1 = (s.head.filter pred).take k ∧
    (DrainFilter.dropRun pred (DrainFilter.runK pred s.drain_filter k).2).cursor.toSet =
      { head := s.head.filter (fun a => !pred a),
        len := (s.head.filter (fun a => !pred a)).length } := by
  constructor
  · exact DrainFilter.runK_yield pred s.head.length s.head (le_refl _) k [] s.len s.len
  · obtain ⟨q, r2, m2, hsplit, hstate⟩ :=
      DrainFilter.runK_state pred s.head.length s.head (le_refl _) k [] s.len s.len
    rw [Set.drain_filter_eq, hstate]
    have hfuel : (r2.filter pred).length < r2.length + 1 :=
      Nat.lt_succ_of_le (List.length_filter_le pred r2)
    obtain ⟨m3, hend⟩ := DrainFilter.drain_to_end pred r2.length r2 (le_refl _)
      ([] ++ q.filter (fun a => !pred a)) (s.len - (q.filter pred).length) m2
      (r2.length + 1) hfuel
    show (DrainFilter.runK pred
        { cursor := { passed := [] ++ q.filter (fun a => !pred a), link := some r2,
                      len := s.len - (q.filter pred).length }, len := m2 }
        (r2.length + 1)).2.cursor.toSet = _
    rw [hend]
    have hlen1 := length_filter_not pred s.head
    have hq : (s.head.filter pred).length
        = (q.filter pred).length + (r2.filter pred).length := by
      rw [hsplit, List.filter_append, List.length_append]
    have hq2 : s.head.filter (fun a => !pred a)
        = q.filter (fun a => !pred a) ++ r2.filter (fun a => !pred a) := by
      rw [hsplit, List.filter_append]
    have hL : (q.filter (fun a => !pred a)).length
        + (r2.filter (fun a => !pred a)).length
        = (s.head.filter (fun a => !pred a)).length := by
      rw [hq2, List.length_append]
    simp only [CursorMut.toSet, Option.getD_some, List.append_nil, List.nil_append,
      Set.mk.injEq, hq2, List.length_append]
    exact ⟨by simp, by omega⟩

omit [LinearOrder T] in
/-- The teardown loop terminates after exactly one iteration per node. -/
theorem dropStep_iterate : ∀ l : List T, dropStep^[l.length] l = [] := by
  intro l
  induction l with
  | nil => rfl
  | cons a r ih =>
    rw [List.length_cons, Function.iterate_succ_apply]
    exact ih

omit [LinearOrder T] in
/-- Each teardown iteration detaches exactly one node. -/
theorem dropStep_length : ∀ (l : List T) (k : Nat), k < l.length →
    (dropStep^[k] l).length = l.length - k := by
  intro l
  induction l with
  | nil => intro k hk; exact absurd hk (by simp)
  | cons a r ih =>
    intro k hk
    cases k with
    | zero => rfl
    | succ k =>
      rw [Function.iterate_succ_apply]
      show (dropStep^[k] r).length = _
      rw [List.length_cons] at hk
      rw [ih k (by omega), List.length_cons]
      omega

/-- Inserting an element greater than the whole chain appends it. -/
theorem insertChain_append_last (x : T) : ∀ c : List T, (∀ a ∈ c, a < x) →
    insertChain x c = (c ++ [x], true) := by
  intro c
  induction c with
  | nil => intro _; rfl
  | cons a c ih =>
    intro h
    have ha : a < x := h a (List.mem_cons_self a c)
    rw [insertChain.eq_2, (cmp_eq_gt_iff x a).mpr ha]
    rw [ih (fun b hb => h b (List.mem_cons_of_mem a hb))]
    rfl

/-- Extending with a strictly larger sorted tail appends it whole. -/
theorem Set.extend_sorted_append : ∀ (l : List T) (s : Set T),
    s.head.Sorted (· < ·) → (∀ a ∈ s.head, ∀ b ∈ l, a < b) → l.Sorted (· < ·) →
    (s.extend l).head = s.head ++ l ∧ (s.extend l).len = s.len + l.length := by
  intro l
  induction l with
  | nil => intro s _ _ _; exact ⟨by simp [Set.extend], by simp [Set.extend]⟩
  | cons x l ih =>
    intro s hs hlt hl
    rw [Set.extend_cons]
    have hins : insertChain x s.head = (s.head ++ [x], true) :=
      insertChain_append_last x s.head
        (fun a ha => hlt a ha x (List.mem_cons_self x l))
    have hhead : ((s.insert x).1).head = s.head ++ [x] := by
      rw [Set.insert_head, hins]
    have hlen : ((s.insert x).1).len = s.len + 1 := by
      show (if (insertChain x s.head).2 then s.len + 1 else s.len) = s.len + 1
      rw [hins]
      simp
    have hsorted : ((s.insert x).1).head.Sorted (· < ·) := by
      rw [hhead]
      refine List.pairwise_append.mpr ⟨hs, by simp, ?_⟩
      intro a ha b hb
      rw [List.mem_singleton] at hb
      subst hb
      exact hlt a ha b (List.mem_cons_self b l)
    have hlt2 : ∀ a ∈ ((s.insert x).1).head, ∀ b ∈ l, a < b := by
      rw [hhead]
      intro a ha b hb
      rcases List.mem_append.mp ha with ha | ha
      · exact hlt a ha b (List.mem_cons_of_mem x hb)
      · rw [List.mem_singleton] at ha
        subst ha
        exact (List.sorted_cons.mp hl).1 b hb
    obtain ⟨h1, h2⟩ := ih ((s.insert x).1) hsorted hlt2 (List.sorted_cons.mp hl).2
    refine ⟨?_, ?_⟩
    · rw [h1, hhead, List.append_assoc, List.singleton_append]
    · rw [h2, hlen, List.length_cons]
      omega

/-- Building a set from an already strictly sorted list reproduces it. -/
theorem Set.fromList_sorted (l : List T) (hl : l.Sorted (· < ·)) :
    (Set.fromList l).head = l ∧ (Set.fromList l).len = l.length := by
  obtain ⟨h1, h2⟩ := Set.extend_sorted_append l Set.new (by simp [Set.new]) (by simp [Set.new]) hl
  exact ⟨by simpa [Set.new] using h1, by simpa [Set.new] using h2⟩

/-- C1: every Set reachable through the public API (`new`, `insert`,
`replace`, `remove`, `extend`/`from_iter`, `clone`, `drain_filter`, and the
set-algebra constructors) satisfies the representation invariant — the chain
read head-to-tail is strictly increasing and the cached `len` equals the
number of reachable nodes — and for every sequence of inserted elements the
ascending iteration yields exactly the distinct elements in strictly
increasing order with `len` the count of distinct elements. -/
theorem claim_C1 {T : Type} [LinearOrder T] :
    ((Set.new : Set T).wf) ∧
    (∀ (s : Set T) (x : T), s.wf → ((s.insert x).1).wf) ∧
    (∀ (s : Set T) (x : T), s.wf → ((s.replace x).1).wf) ∧
    (∀ (s : Set T) (x : T), s.wf → ((s.remove x).1).wf) ∧
    (∀ l : List T, (Set.fromList l).wf) ∧
    (∀ (s : Set T) (l : List T), s.wf → (s.extend l).wf) ∧
    (∀ s : Set T, s.wf → s.clone.wf) ∧
    (∀ (pred : T → Bool) (s : Set T) (k : Nat), s.wf →
      ((DrainFilter.dropRun pred (DrainFilter.runK pred s.drain_filter k).2).cursor.toSet).wf) ∧
    (∀ s t : Set T, s.wf → t.wf →
      (s.intersection t).wf ∧ (s.union t).wf ∧ (s.difference t).wf ∧
        (s.symmetric_difference t).wf) ∧
    (∀ l : List T,
      ((Set.fromList l).iter.collect).Sorted (· < ·) ∧
      (∀ x : T, x ∈ (Set.fromList l).iter.collect ↔ x ∈ l) ∧
      (Set.fromList l).len = l.toFinset.card) := by
  refine ⟨⟨List.sorted_nil, rfl⟩, Set.wf_insert, Set.wf_replace, Set.wf_remove,
    Set.wf_fromList, (fun s l h => Set.wf_extend l s h), Set.wf_clone, ?_, ?_, ?_⟩
  · intro pred s k h
    rw [(drainFilter_run pred s k h.2).2]
    exact ⟨h.1.filter _, rfl⟩
  · intro s t hs ht
    exact ⟨⟨sorted_interChain s.head t.head hs.1 ht.1, rfl⟩,
      ⟨sorted_unionChain s.head t.head hs.1 ht.1, rfl⟩,
      ⟨sorted_diffChain s.head t.head hs.1, rfl⟩,
      ⟨sorted_symmDiffChain s.head t.head hs.1 ht.1, rfl⟩⟩
  · intro l
    have hw := Set.wf_fromList l
    have hc : (Set.fromList l).iter.collect = (Set.fromList l).head :=
      Iter.collect_eq (Set.fromList l).head (Set.fromList l).len
    refine ⟨?_, ?_, Set.len_fromList l⟩
    · rw [hc]; exact hw.1
    · intro x; rw [hc]; exact Set.mem_fromList x l

/-- Bridging booleans and the propositions they decide. -/
theorem bool_eq_of_iff : ∀ {a b : Bool}, (a = true ↔ b = true) → a = b := by
  intro a b h
  cases a <;> cases b
  · rfl
  · exact absurd (h.mpr rfl) (by decide)
  · exact absurd (h.mp rfl) (by decide)
  · rfl

/-- C2: membership in `intersection`, `union` and `difference` is the
conjunction, disjunction, and difference of membership in the operands. -/
theorem claim_C2 {T : Type} [LinearOrder T] (A B : Set T) (x : T)
    (hA : A.wf) (hB : B.wf) :
    (A.intersection B).contains x = (A.contains x && B.contains x) ∧
    (A.union B).contains x = (A.contains x || B.contains x) ∧
    (A.difference B).contains x = (A.contains x && !B.contains x) := by
  have hmA : A.contains x = true ↔ x ∈ A.head := containsChain_iff_mem x A.head hA.1
  have hmB : B.contains x = true ↔ x ∈ B.head := containsChain_iff_mem x B.head hB.1
  have hmB2 : B.contains x = false ↔ x ∉ B.head := by
    rw [← hmB]
    cases hcb : B.contains x <;> simp
  refine ⟨?_, ?_, ?_⟩
  · apply bool_eq_of_iff
    show containsChain x (interChain A.head B.head) = true ↔ _
    rw [containsChain_iff_mem x _ (sorted_interChain A.head B.head hA.1 hB.1),
      mem_interChain x A.head B.head hA.1 hB.1, Bool.and_eq_true]
    exact and_congr hmA.symm hmB.symm
  · apply bool_eq_of_iff
    show containsChain x (unionChain A.head B.head) = true ↔ _
    rw [containsChain_iff_mem x _ (sorted_unionChain A.head B.head hA.1 hB.1),
      mem_unionChain x A.head B.head, Bool.or_eq_true]
    exact or_congr hmA.symm hmB.symm
  · apply bool_eq_of_iff
    show containsChain x (diffChain A.head B.head) = true ↔ _
    rw [containsChain_iff_mem x _ (sorted_diffChain A.head B.head hA.1),
      mem_diffChain x A.head B.head hA.1 hB.1, Bool.and_eq_true]
    refine and_congr hmA.symm ?_
    cases hcb : B.contains x
    · simp only [Bool.not_false]
      simp only [hcb] at hmB2
      exact iff_of_true (hmB2.mp trivial) trivial
    · simp only [Bool.not_true]
      simp only [hcb] at hmB
      constructor
      · intro hc
        exact (hc (hmB.mp trivial)).elim
      · intro hc
        exact absurd hc (by decide)

/-- C3: after `k` `next` calls on `drain_filter` and then discarding the
iterator (whose `Drop` drives the pass to completion), the set holds exactly
the elements failing the predicate in original ascending order, and the
yielded sequence is the passing elements in original ascending order. -/
theorem claim_C3 {T : Type} [LinearOrder T] (pred : T → Bool) (s : Set T)
    (k : Nat) (h : s.wf) :
    (DrainFilter.runK pred s.drain_filter k).1 = (s.head.filter pred).take k ∧
    (DrainFilter.dropRun pred (DrainFilter.runK pred s.drain_filter k).2).cursor.toSet =
      { head := s.head.filter (fun a => !pred a),
        len := (s.head.filter (fun a => !pred a)).length } :=
  drainFilter_run pred s k h.2

/-- C4: `CursorMut::insert` aborts exactly when the cursor no longer holds a
`Link`, and every cursor-driven public operation (`insert`, `replace`, and
the four set-algebra builders) keeps its cursor on a held `Link` at every
`insert`, so the abort is unreachable through the public API. -/
theorem claim_C4 {T : Type} [LinearOrder T] :
    (∀ (c : CursorMut T) (x : T), c.link = none → c.insert x = none) ∧
    (∀ (s : Set T) (x : T), ∃ out, insertLoop x (CursorMut.new s) = some out) ∧
    (∀ (s : Set T) (x : T), ∃ out, replaceLoop x (CursorMut.new s) = some out) ∧
    (∀ s t : Set T, ∃ out, unionLoop s.head t.head (CursorMut.new Set.new) = some out) ∧
    (∀ s t : Set T, ∃ out, interLoop s.head t.head (CursorMut.new Set.new) = some out) ∧
    (∀ s t : Set T, ∃ out, diffLoop s.head t.head (CursorMut.new Set.new) = some out) ∧
    (∀ s t : Set T, ∃ out,
      symmDiffLoop s.head t.head (CursorMut.new Set.new) = some out) := by
  refine ⟨CursorMut.insert_none, ?_, ?_, ?_, ?_, ?_, ?_⟩
  · intro s x
    obtain ⟨c2, h1, _⟩ := insertLoop_spec x s.head [] s.len
    exact ⟨(c2, (insertChain x s.head).2), h1⟩
  · intro s x
    obtain ⟨c2, h1, _⟩ := replaceLoop_spec x s.head [] s.len
    exact ⟨(c2, (replaceChain x s.head).2), h1⟩
  · intro s t
    exact ⟨_, unionLoop_spec s.head t.head [] 0⟩
  · intro s t
    exact ⟨_, interLoop_spec s.head t.head [] 0⟩
  · intro s t
    exact ⟨_, diffLoop_spec s.head t.head [] 0⟩
  · intro s t
    exact ⟨_, symmDiffLoop_spec s.head t.head [] 0⟩

/-- C5: the order on Sets is the lexicographic order on ascending chains —
after any common prefix the first differing elements decide (`Less` on the
smaller side), a proper prefix is `Less`, and equality holds exactly for
identical chains. -/
theorem claim_C5 {T : Type} [LinearOrder T] :
    (∀ A B : Set T,
      (A.cmp B = Ordering.eq ↔ A.head = B.head) ∧ (A.eq B = true ↔ A.head = B.head)) ∧
    (∀ (p i j : List T) (a b : T), a ≠ b →
      cmpChain (p ++ a :: i) (p ++ b :: j) = cmp a b ∧
      (a < b → cmpChain (p ++ a :: i) (p ++ b :: j) = Ordering.lt)) ∧
    (∀ (p : List T) (b : T) (j : List T), cmpChain p (p ++ b :: j) = Ordering.lt) ∧
    (∀ (p : List T) (a : T) (i : List T), cmpChain (p ++ a :: i) p = Ordering.gt) := by
  refine ⟨?_, ?_, ?_, ?_⟩
  · intro A B
    constructor
    · exact cmpChain_eq_iff A.head B.head
    · rw [Set.eq, Set.cmp]
      have hbeq : ∀ o : Ordering, (o == Ordering.eq) = true ↔ o = Ordering.eq := by
        intro o
        cases o <;> decide
      rw [hbeq]
      exact cmpChain_eq_iff A.head B.head
  · intro p i j a b hab
    refine ⟨cmpChain_first_diff a b i j hab p, ?_⟩
    intro hlt
    rw [cmpChain_first_diff a b i j hab p, (cmp_eq_lt_iff a b).mpr hlt]
  · intro p b j
    exact cmpChain_proper_lt b j p
  · intro p a i
    exact cmpChain_proper_gt a i p

/-- C6: `is_subset` decides chain inclusion; it is vacuously true for an
empty receiver, false as soon as the receiver's element is strictly below
the argument's head, and false when the receiver still has elements after
the argument is exhausted. -/
theorem claim_C6 {T : Type} [LinearOrder T] (A B : Set T) (hA : A.wf) (hB : B.wf) :
    (A.is_subset B = true ↔ ∀ x ∈ A.head, x ∈ B.head) ∧
    (A.head = [] → A.is_subset B = true) ∧
    (∀ (a : T) (i : List T) (b : T) (j : List T), a < b →
      subsetChain (a :: i) (b :: j) = false) ∧
    (∀ (a : T) (i : List T), subsetChain (a :: i) ([] : List T) = false) := by
  refine ⟨subsetChain_iff A.head B.head hA.1 hB.1, ?_, ?_, ?_⟩
  · intro h
    rw [Set.is_subset, h]
    cases hb : B.head with
    | nil => simp [subsetChain]
    | cons b j => simp [subsetChain]
  · intro a i b j h
    simp [subsetChain, (cmp_eq_lt_iff a b).mpr h]
  · intro a i
    simp [subsetChain]

/-- C7: `insert` is idempotent — inserting an absent element returns `true`
and grows `len` by one, and re-inserting it returns `false` and leaves the
set (chain and length) untouched. -/
theorem claim_C7 {T : Type} [LinearOrder T] (S : Set T) (e : T) (h : S.wf)
    (he : S.contains e = false) :
    (S.insert e).2 = true ∧
    ((S.insert e).1).len = S.len + 1 ∧
    (((S.insert e).1).insert e).2 = false ∧
    (((S.insert e).1).insert e).1 = (S.insert e).1 := by
  have hiff : S.contains e = true ↔ e ∈ S.head := containsChain_iff_mem e S.head h.1
  have hnm : e ∉ S.head := by
    intro hm
    have h2 : S.contains e = true := hiff.mpr hm
    rw [he] at h2
    exact Bool.noConfusion h2
  have hsnd : (insertChain e S.head).2 = true := insertChain_not_mem e S.head hnm
  have hm2 : e ∈ ((S.insert e).1).head := by
    rw [Set.insert_head]
    exact (mem_insertChain e e S.head).mpr (Or.inl rfl)
  have hmem : insertChain e ((S.insert e).1).head = (((S.insert e).1).head, false) :=
    insertChain_mem e _ (Set.wf_insert S e h).1 hm2
  refine ⟨hsnd, ?_, ?_, ?_⟩
  · show (if (insertChain e S.head).2 then S.len + 1 else S.len) = S.len + 1
    rw [hsnd]
    rfl
  · show (insertChain e ((S.insert e).1).head).2 = false
    rw [hmem]
  · show ({ head := (insertChain e ((S.insert e).1).head).1,
            len := if (insertChain e ((S.insert e).1).head).2
                   then ((S.insert e).1).len + 1 else ((S.insert e).1).len } : Set T)
        = (S.insert e).1
    rw [hmem]
    rfl

/-- C8: `remove` undoes `insert` — for an absent element, inserting then
removing returns `Some e` and restores the set, equal under the defined
ordering (indeed structurally identical). -/
theorem claim_C8 {T : Type} [LinearOrder T] (S : Set T) (e : T) (h : S.wf)
    (he : S.contains e = false) :
    (((S.insert e).1).remove e).2 = some e ∧
    ((((S.insert e).1).remove e).1).eq S = true ∧
    (((S.insert e).1).remove e).1 = S := by
  have hiff : S.contains e = true ↔ e ∈ S.head := containsChain_iff_mem e S.head h.1
  have hnm : e ∉ S.head := by
    intro hm
    have h2 : S.contains e = true := hiff.mpr hm
    rw [he] at h2
    exact Bool.noConfusion h2
  have hrc : removeChain e ((insertChain e S.head).1) = (S.head, some e) :=
    removeChain_insertChain e S.head h.1 hnm
  have hsnd : (insertChain e S.head).2 = true := insertChain_not_mem e S.head hnm
  have h1 : (((S.insert e).1).remove e).1 = S := by
    show ({ head := (removeChain e ((insertChain e S.head).1)).1,
            len := if (removeChain e ((insertChain e S.head).1)).2.isSome
                   then ((S.insert e).1).len - 1 else ((S.insert e).1).len } : Set T) = S
    rw [hrc]
    show ({ head := S.head,
            len := (if (insertChain e S.head).2 then S.len + 1 else S.len) - 1 } : Set T) = S
    rw [hsnd]
    rfl
  refine ⟨?_, ?_, h1⟩
  · show (removeChain e ((insertChain e S.head).1)).2 = some e
    rw [hrc]
  · rw [h1, Set.eq, Set.cmp, (cmpChain_eq_iff S.head S.head).mpr rfl]
    rfl

/-- C9: teardown is an iterative loop detaching exactly one node per
iteration — it empties any chain in `length` iterations with one node
removed per step, and in particular tears down the set built from 100000
ascending elements. -/
theorem claim_C9 :
    (∀ (T : Type) (chain : List T), dropStep^[chain.length] chain = []) ∧
    (∀ (T : Type) (chain : List T) (k : Nat), k < chain.length →
      (dropStep^[k] chain).length = chain.length - k) ∧
    dropStep^[100000] ((Set.fromList (List.range 100000)).head) = [] ∧
    (Set.fromList (List.range 100000)).len = 100000 := by
  have hs : (List.range 100000).Sorted (· < ·) := List.pairwise_lt_range 100000
  obtain ⟨h1, h2⟩ := Set.fromList_sorted (List.range 100000) hs
  refine ⟨fun U chain => dropStep_iterate chain,
    fun U chain k hk => dropStep_length chain k hk, ?_, ?_⟩
  · rw [h1]
    have h3 := dropStep_iterate (List.range 100000)
    rwa [List.length_range] at h3
  · rw [h2, List.length_range]

/-- C10: `remove` is atomic on failure — removing an element not contained
in the set returns `None` and leaves the set (chain and `len`) unchanged. -/
theorem claim_C10 {T : Type} [LinearOrder T] (S : Set T) (e : T)
    (he : S.contains e = false) :
    S.remove e = (S, none) := by
  have hrc : removeChain e S.head = (S.head, none) :=
    removeChain_not_contains e S.head he
  show (({ head := (removeChain e S.head).1,
           len := if (removeChain e S.head).2.isSome then S.len - 1 else S.len } : Set T),
        (removeChain e S.head).2) = (S, none)
  rw [hrc]
  rfl

/-- Witness for C1 at a concrete well-formed set. -/
theorem claim_C1_witness :
    Set.wf ({ head := [1, 3], len := 2 } : Set ℤ) ∧
    ((({ head := [1, 3], len := 2 } : Set ℤ).insert 2).1).wf :=
  ⟨by decide, (claim_C1 (T := ℤ)).2.1 { head := [1, 3], len := 2 } 2 (by decide)⟩

/-- Witness for C2 at concrete well-formed sets. -/
theorem claim_C2_witness :
    Set.wf ({ head := [1, 3], len := 2 } : Set ℤ) ∧
    Set.wf ({ head := [1, 2], len := 2 } : Set ℤ) ∧
    ((({ head := [1, 3], len := 2 } : Set ℤ).intersection { head := [1, 2], len := 2 }).contains 3 =
        (({ head := [1, 3], len := 2 } : Set ℤ).contains 3 &&
         ({ head := [1, 2], len := 2 } : Set ℤ).contains 3) ∧
      (({ head := [1, 3], len := 2 } : Set ℤ).union { head := [1, 2], len := 2 }).contains 3 =
        (({ head := [1, 3], len := 2 } : Set ℤ).contains 3 ||
         ({ head := [1, 2], len := 2 } : Set ℤ).contains 3) ∧
      (({ head := [1, 3], len := 2 } : Set ℤ).difference { head := [1, 2], len := 2 }).contains 3 =
        (({ head := [1, 3], len := 2 } : Set ℤ).contains 3 &&
         !({ head := [1, 2], len := 2 } : Set ℤ).contains 3)) :=
  ⟨by decide, by decide,
    claim_C2 (T := ℤ) { head := [1, 3], len := 2 } { head := [1, 2], len := 2 } 3
      (by decide) (by decide)⟩

/-- Witness for C3 at a concrete well-formed set and predicate. -/
theorem claim_C3_witness :
    Set.wf ({ head := [1, 2, 3], len := 3 } : Set ℤ) ∧
    ((DrainFilter.runK (fun a => a == 1)
        ({ head := [1, 2, 3], len := 3 } : Set ℤ).drain_filter 1).1 =
      ((({ head := [1, 2, 3], len := 3 } : Set ℤ).head.filter (fun a => a == 1)).take 1) ∧
     (DrainFilter.dropRun (fun a => a == 1)
        (DrainFilter.runK (fun a => a == 1)
          ({ head := [1, 2, 3], len := 3 } : Set ℤ).drain_filter 1).2).cursor.toSet =
      { head := ({ head := [1, 2, 3], len := 3 } : Set ℤ).head.filter (fun a => !(a == 1)),
        len := (({ head := [1, 2, 3], len := 3 } : Set ℤ).head.filter
                  (fun a => !(a == 1))).length }) :=
  ⟨by decide, claim_C3 (T := ℤ) (fun a => a == 1) { head := [1, 2, 3], len := 3 } 1 (by decide)⟩

/-- Witness for C4: a cursor with no held `Link` makes `insert` abort. -/
theorem claim_C4_witness :
    ({ passed := [], link := none, len := 0 } : CursorMut ℤ).link = none ∧
    ({ passed := [], link := none, len := 0 } : CursorMut ℤ).insert 7 = none :=
  ⟨rfl, claim_C4.1 { passed := [], link := none, len := 0 } 7 rfl⟩

/-- Witness for C5 at a concrete first difference. -/
theorem claim_C5_witness :
    ((2 : ℤ) ≠ 3) ∧
    (cmpChain ([1, 2] : List ℤ) [1, 3] = cmp (2 : ℤ) 3 ∧
      ((2 : ℤ) < 3 → cmpChain ([1, 2] : List ℤ) [1, 3] = Ordering.lt)) :=
  ⟨by decide, claim_C5.2.1 [1] [] [] 2 3 (by decide)⟩

/-- Witness for C6 at concrete well-formed sets. -/
theorem claim_C6_witness :
    Set.wf ({ head := [2], len := 1 } : Set ℤ) ∧
    Set.wf ({ head := [1, 2, 3], len := 3 } : Set ℤ) ∧
    (({ head := [2], len := 1 } : Set ℤ).is_subset { head := [1, 2, 3], len := 3 } = true ↔
      ∀ x ∈ ({ head := [2], len := 1 } : Set ℤ).head,
        x ∈ ({ head := [1, 2, 3], len := 3 } : Set ℤ).head) :=
  ⟨by decide, by decide,
    (claim_C6 (T := ℤ) { head := [2], len := 1 } { head := [1, 2, 3], len := 3 }
      (by decide) (by decide)).1⟩

/-- Witness for C7 at a concrete absent element. -/
theorem claim_C7_witness :
    Set.wf ({ head := [1, 3], len := 2 } : Set ℤ) ∧
    ({ head := [1, 3], len := 2 } : Set ℤ).contains 2 = false ∧
    ((({ head := [1, 3], len := 2 } : Set ℤ).insert 2).2 = true ∧
     ((({ head := [1, 3], len := 2 } : Set ℤ).insert 2).1).len =
       ({ head := [1, 3], len := 2 } : Set ℤ).len + 1 ∧
     (((({ head := [1, 3], len := 2 } : Set ℤ).insert 2).1).insert 2).2 = false ∧
     (((({ head := [1, 3], len := 2 } : Set ℤ).insert 2).1).insert 2).1 =
       (({ head := [1, 3], len := 2 } : Set ℤ).insert 2).1) :=
  ⟨by decide, by decide,
    claim_C7 (T := ℤ) { head := [1, 3], len := 2 } 2 (by decide) (by decide)⟩

/-- Witness for C8 at a concrete absent element. -/
theorem claim_C8_witness :
    Set.wf ({ head := [1, 3], len := 2 } : Set ℤ) ∧
    ({ head := [1, 3], len := 2 } : Set ℤ).contains 2 = false ∧
    ((((({ head := [1, 3], len := 2 } : Set ℤ).insert 2).1).remove 2).2 = some 2 ∧
     ((((({ head := [1, 3], len := 2 } : Set ℤ).insert 2).1).remove 2).1).eq
       { head := [1, 3], len := 2 } = true ∧
     (((({ head := [1, 3], len := 2 } : Set ℤ).insert 2).1).remove 2).1 =
       { head := [1, 3], len := 2 }) :=
  ⟨by decide, by decide,
    claim_C8 (T := ℤ) { head := [1, 3], len := 2 } 2 (by decide) (by decide)⟩

/-- Witness for C9's per-iteration progress bound. -/
theorem claim_C9_witness :
    (1 < ([5, 6] : List ℤ).length) ∧
    (dropStep^[1] ([5, 6] : List ℤ)).length = ([5, 6] : List ℤ).length - 1 :=
  ⟨by decide, claim_C9.2.1 ℤ [5, 6] 1 (by decide)⟩

/-- Witness for C10 at a concrete absent element. -/
theorem claim_C10_witness :
    ({ head := [1, 3], len := 2 } : Set ℤ).contains 2 = false ∧
    ({ head := [1, 3], len := 2 } : Set ℤ).remove 2 =
      ({ head := [1, 3], len := 2 }, none) :=
  ⟨by decide, claim_C10 (T := ℤ) { head := [1, 3], len := 2 } 2 (by decide)⟩

end ListSet
